import Mathlib

/-! rdoc: a replicated JSON-shaped document

A shallow embedding of `rdoc.go` (the document engine: `Init`, `ApplyRemoteOperation`,
`ApplyOperation`, `traverse`, `Mutate`, `AddDependency`, `link`, `allChildren`),
of `operation/cursor.go` and of `types/map.go`, followed by theorems about them.

Modelling conventions.

* Go's `interface{}` keys become the closed type `Key`; Go's `int` becomes `Int`
  (no arithmetic is done on indices, so no overflow is involved).
* The containers of `github.com/emirpasic/gods` are modelled by lists:
  `hashmap.Map` by an association list kept in a canonical (key-sorted) order, so that two
  maps holding the same bindings are equal, and `arraylist.List` by a plain list.
* The node tree is a strict ownership hierarchy, so a `Node` owns its children by value.
  A Go `*Node` obtained while walking the tree is modelled by a `Ref`: the root it lives
  under and the path from that root. Root `0` is the document head; a node that `newNode`
  allocated and that no container accepted is a root of its own.
-/

namespace Rdoc

/-! ## Operations and cursors -/

/-- A dynamically typed key (`interface{}` in the source): absent, a string, an int, or a
value of any other Go type. -/
inductive Key where
  | nil
  | str (s : String)
  | int (i : Int)
  | other (tag : String)
  deriving DecidableEq, Repr

/-- An opaque operation payload (`interface{}` in the source); `json` carries a composite
value in serialised form. -/
inductive Value where
  | int (i : Int)
  | str (s : String)
  | json (text : String)
  deriving DecidableEq, Repr

/-- Modelled from the spec: the link/cursor kinds `op.MapT`, `op.ListT`, `op.RegT` are
constants of the operation package that the source uses but does not declare. -/
inductive LinkType where
  | MapT
  | ListT
  | RegT
  | unknown (code : Int)
  deriving DecidableEq, Repr

/-- A cursor element: `MapKey` or `ListKey` (operation/cursor.go). -/
inductive CursorElement where
  | MapKey (Key : String)
  | ListKey (Key : Int)
  deriving DecidableEq, Repr

/-- Mirrors `MapKey.Get` and `ListKey.Get`. -/
def CursorElement.Get : CursorElement → Key
  | .MapKey k => .str k
  | .ListKey k => .int k

/-- Modelled from the spec: `CursorElement.Type()` is called by `traverse` but not declared
in the source; each element "exposes its kind tag (map vs. list)". -/
def CursorElement.Type : CursorElement → LinkType
  | .MapKey _ => .MapT
  | .ListKey _ => .ListT

/-- Mirrors `Cursor`. -/
structure Cursor where
  Path : List CursorElement
  deriving DecidableEq, Repr

/-- Mirrors `NewCursor`: appends the elements one by one. -/
def NewCursor (path : List CursorElement) : Cursor :=
  path.foldl (fun c e => { c with Path := c.Path ++ [e] }) { Path := [] }

/-- Modelled from the spec: the mutation kinds `op.Insert`, `op.Assign`, `op.Delete`. -/
inductive MutationType where
  | Insert
  | Assign
  | Delete
  deriving DecidableEq, Repr

/-- Modelled from the spec: `Mutation: {Kind, Key, Value}` (the type is not declared in the
source; the field names are those `Mutate` uses). -/
structure Mutation where
  Typ : MutationType
  Key : Key
  Value : Value
  deriving DecidableEq, Repr

/-- Modelled from the spec: `Operation: { ID, Deps, Cursor, Mutation }` (the type is not
declared in the source; the field names are those `rdoc.go` uses). -/
structure Operation where
  ID : String
  Deps : List String
  Cursor : Cursor
  Mutation : Mutation
  deriving DecidableEq, Repr

/-! ## Containers -/

/-- The code points of a string key; the canonical order of a map is the lexicographic
order of these. -/
def keyCode (s : String) : List Nat := s.data.map Char.toNat

/-- Model of `hashmap.Map.Get`: the value bound to `k`, if any. -/
def hGet {α : Type} : List (String × α) → String → Option α
  | [], _ => none
  | (k', v) :: t, k => if k = k' then some v else hGet t k

/-- Model of `hashmap.Map.Put`: binds `k` to `v`, replacing an earlier binding of `k`. The
entry is placed at its position in key order. -/
def hPut {α : Type} : List (String × α) → String → α → List (String × α)
  | [], k, v => [(k, v)]
  | (k', v') :: t, k, v =>
    if k = k' then (k, v) :: t
    else if keyCode k < keyCode k' then (k, v) :: (k', v') :: t
    else (k', v') :: hPut t k v

/-- Model of `hashmap.Map.Values`. -/
def hValues {α : Type} (m : List (String × α)) : List α := m.map Prod.snd

/-- Model of `hashmap.Map.Keys`. -/
def hKeys {α : Type} (m : List (String × α)) : List String := m.map Prod.fst

/-- Model of `arraylist.List.Get`: the element at `i`, when `0 ≤ i < size`. -/
def aGet {α : Type} (l : List α) (i : Int) : Option α :=
  if 0 ≤ i ∧ i < l.length then l.get? i.toNat else none

/-- Model of `arraylist.List.Insert`: inserts at `i`, shifting the elements at and after `i`
to the right; `i = size` appends; any other index leaves the list as it is. -/
def aInsert {α : Type} (l : List α) (i : Int) (v : α) : List α :=
  if 0 ≤ i ∧ i < l.length then l.take i.toNat ++ v :: l.drop i.toNat
  else if i = l.length then l ++ [v]
  else l

/-! ## Nodes -/

/-- Mirrors `Node`: key, deps, children by name, children by index, register. -/
inductive Node where
  | mk (key : Key) (deps : List String) (hmap : List (String × Node)) (list : List Node)
      (reg : List (String × Value)) : Node

namespace Node

/-- Field `key`. -/
def key : Node → Key
  | mk k _ _ _ _ => k

/-- Field `deps`. -/
def deps : Node → List String
  | mk _ d _ _ _ => d

/-- Field `hmap` (`GetMap`). -/
def hmap : Node → List (String × Node)
  | mk _ _ h _ _ => h

/-- Field `list` (`GetList`). -/
def list : Node → List Node
  | mk _ _ _ l _ => l

/-- Field `reg` (`GetReg`). -/
def reg : Node → List (String × Value)
  | mk _ _ _ _ r => r

/-- Replaces the field `deps`. -/
def setDeps : Node → List String → Node
  | mk k _ h l r, d => mk k d h l r

/-- Replaces the field `hmap`. -/
def setHmap : Node → List (String × Node) → Node
  | mk k d _ l r, h => mk k d h l r

/-- Replaces the field `list`. -/
def setList : Node → List Node → Node
  | mk k d h _ r, l => mk k d h l r

/-- Replaces the field `reg`. -/
def setReg : Node → List (String × Value) → Node
  | mk k d h l _, r => mk k d h l r

end Node

mutual
/-- Number of nodes of the tree rooted at a node. -/
def Node.size : Node → Nat
  | .mk _ _ h l _ => 1 + sizeHmap h + sizeList l
/-- Number of nodes below the entries of a map. -/
def sizeHmap : List (String × Node) → Nat
  | [] => 0
  | (_, n) :: t => Node.size n + sizeHmap t
/-- Number of nodes below the elements of a list. -/
def sizeList : List Node → Nat
  | [] => 0
  | n :: t => Node.size n + sizeList t
end

mutual
/-- Decides equality of nodes. -/
def Node.decEq : (a b : Node) → Decidable (a = b)
  | .mk k₁ d₁ h₁ l₁ r₁, .mk k₂ d₂ h₂ l₂ r₂ =>
    if hk : k₁ = k₂ then
      if hd : d₁ = d₂ then
        if hr : r₁ = r₂ then
          match decEqHmap h₁ h₂, decEqList l₁ l₂ with
          | isTrue hh, isTrue hl => isTrue (by rw [hk, hd, hr, hh, hl])
          | isFalse hh, _ => isFalse (fun h => hh (by injection h))
          | _, isFalse hl => isFalse (fun h => hl (by injection h))
        else isFalse (fun h => hr (by injection h))
      else isFalse (fun h => hd (by injection h))
    else isFalse (fun h => hk (by injection h))
/-- Decides equality of maps of nodes. -/
def decEqHmap : (a b : List (String × Node)) → Decidable (a = b)
  | [], [] => isTrue rfl
  | [], _ :: _ => isFalse (fun h => by cases h)
  | _ :: _, [] => isFalse (fun h => by cases h)
  | (k₁, n₁) :: t₁, (k₂, n₂) :: t₂ =>
    if hk : k₁ = k₂ then
      match Node.decEq n₁ n₂, decEqHmap t₁ t₂ with
      | isTrue hn, isTrue ht => isTrue (by rw [hk, hn, ht])
      | isFalse hn, _ => isFalse (fun h => hn (by injection h with h1 h2; injection h1))
      | _, isFalse ht => isFalse (fun h => ht (by injection h))
    else isFalse (fun h => hk (by injection h with h1 h2; injection h1))
/-- Decides equality of lists of nodes. -/
def decEqList : (a b : List Node) → Decidable (a = b)
  | [], [] => isTrue rfl
  | [], _ :: _ => isFalse (fun h => by cases h)
  | _ :: _, [] => isFalse (fun h => by cases h)
  | n₁ :: t₁, n₂ :: t₂ =>
    match Node.decEq n₁ n₂, decEqList t₁ t₂ with
    | isTrue hn, isTrue ht => isTrue (by rw [hn, ht])
    | isFalse hn, _ => isFalse (fun h => hn (by injection h))
    | _, isFalse ht => isFalse (fun h => ht (by injection h))
end

instance : DecidableEq Node := Node.decEq

/-- Mirrors `newNode`: a node with the given key and empty deps, map, list and register. -/
def newNode (key : Key) : Node := .mk key [] [] [] []

/-- Mirrors `Node.AddDependency`: appends a dependency to the node's deps. -/
def Node.AddDependency (n : Node) (d : String) : Node :=
  n.setDeps (n.deps ++ [d])

/-- Mirrors `Node.link`: puts `node` into the map of `n` (under its string key) or inserts
it into the list of `n` (at its int key); returns the node `n` after the call and the
error, if any. -/
def Node.link (n : Node) (linkType : LinkType) (node : Node) : Node × Option String :=
  match linkType with
  | .MapT =>
    match node.key with
    | .str key => (n.setHmap (hPut n.hmap key node), none)
    | _ => (n, some "Map key must be string")
  | .ListT =>
    match node.key with
    | .int key => (n.setList (aInsert n.list key node), none)
    | _ => (n, some "List key must be an int")
  | .RegT => (n, none)
  | .unknown _ => (n, some "linking type not correct")

/-- Modelled from the spec: `directChildren` is called by `allChildren` but is not in the
source. The descendants are taken "over both container kinds": the children by name, then
the children by index. -/
def directChildren (n : Node) : List Node :=
  hValues n.hmap ++ n.list

/-- The loop of `allChildren`: `tmp` is the queue, `children` the nodes collected so far.
Each round takes the first node of the queue, appends its direct children to the queue and
the node itself to `children`. The first argument bounds the number of rounds. -/
def allChildrenLoop : Nat → List Node → List Node → List Node
  | 0, _, children => children
  | _ + 1, [], children => children
  | fuel + 1, c :: tmp, children =>
    allChildrenLoop fuel (tmp ++ directChildren c) (children ++ [c])

/-- Mirrors `Node.allChildren`: all nodes below `n`, collected through a queue that starts
with the direct children of `n`. The loop is given as many rounds as `n` has nodes. -/
def Node.allChildren (n : Node) : List Node :=
  allChildrenLoop n.size (directChildren n) []

/-- Modelled from the spec: `clearNodes` is called by `Mutate` but is not in the source.
The call hands it the collected descendants and the deps of the operation, nothing else: it
has no access to the node `n` whose descendants they are, and a `Node` has no pointer to its
parent. The spec says of the collected nodes: "clear them — detach them from their parent
containers, discarding their subtrees". Within the reach of the call, a collected node leaves
its parent container when the parent is itself collected and its containers are emptied; so
every collected node gets empty containers. The spec gives `deps` no role in the clearing.
Returns the nodes after the call, in the order given. -/
def clearNodes (nodes : List Node) (_deps : List String) : List Node :=
  nodes.map (fun c => (c.setHmap []).setList [])

/-- Replaces the values of a map by the given nodes, in order; every key stays. -/
def setValues : List (String × Node) → List Node → List (String × Node)
  | [], _ => []
  | kv :: t, [] => kv :: t
  | (k, _) :: t, c :: cs => (k, c) :: setValues t cs

/-- Replaces the elements of a list by the given nodes, in order; every position stays. -/
def setElems : List Node → List Node → List Node
  | [], _ => []
  | c :: t, [] => c :: t
  | _ :: t, c :: cs => c :: setElems t cs

/-- The node `n` as it is seen after its descendants were modified in place. The source
holds the children of `n` by pointer, so a call that modifies the descendants changes no
field of `n`: each entry of a container of `n` keeps its key or position and shows the
modified child. `nodes` are the descendants after the modification, in the order of
`allChildren`, which starts with the direct children of `n`: by name, then by index. -/
def Node.setChildren (n : Node) (nodes : List Node) : Node :=
  (n.setHmap (setValues n.hmap nodes)).setList (setElems n.list (nodes.drop n.hmap.length))

/-- Mirrors `Node.Mutate`: applies the mutation of `o` to the node; returns the node after
the call and the error, if any. For Delete and Assign the source calls
`clearNodes(children, o.Deps)` on the descendants collected by `allChildren`; `n` is not
handed over, and is afterwards seen with the same entries, showing the cleared children. -/
def Node.Mutate (n : Node) (o : Operation) : Node × Option String :=
  let mutation := o.Mutation
  match mutation.Typ with
  | .Delete =>
    -- delete and return
    let children := n.allChildren
    (n.setChildren (clearNodes children o.Deps), none)
  | typ =>
    let n₁ :=
      match typ with
      | .Assign =>
        -- delete and proceed
        let children := n.allChildren
        n.setChildren (clearNodes children o.Deps)
      | _ => n
    match mutation.Key with
    | .int i =>
      let nn := (newNode mutation.Key).setReg (hPut (newNode mutation.Key).reg o.ID mutation.Value)
      (n₁.setList (aInsert n₁.list i nn), none)
    | .str s =>
      let nn := (newNode mutation.Key).setReg (hPut (newNode mutation.Key).reg o.ID mutation.Value)
      (n₁.setHmap (hPut n₁.hmap s nn), none)
    | .nil => (n₁.setReg (hPut n₁.reg o.ID mutation.Value), none)
    | .other _ => (n₁, some "Key type is not valid")

/-! ## References into the tree -/

/-- The child of `n` that a cursor element names: a lookup in the children by name for a
map key, in the children by index for a list key. -/
def Node.child (n : Node) : CursorElement → Option Node
  | .MapKey k => hGet n.hmap k
  | .ListKey i => aGet n.list i

/-- Stores `ch` in the slot of `n` that a cursor element names (the slot is occupied). -/
def Node.setChild (n : Node) (c : CursorElement) (ch : Node) : Node :=
  match c with
  | .MapKey k => n.setHmap (hPut n.hmap k ch)
  | .ListKey i => n.setList (n.list.set i.toNat ch)

/-- The node reached from `n` by looking up the elements of a path in order. -/
def Node.resolve : Node → List CursorElement → Option Node
  | n, [] => some n
  | n, c :: cs =>
    match n.child c with
    | some ch => ch.resolve cs
    | none => none

/-- Applies `f` to the node reached from `n` by a path, in place. -/
def Node.update (f : Node → Node) : Node → List CursorElement → Node
  | n, [] => f n
  | n, c :: cs =>
    match n.child c with
    | some ch => n.setChild c (Node.update f ch cs)
    | none => n

/-- A pointer to a node (`*Node`): the root the node lives under and the path from that
root. Root `0` is the head of the document. -/
structure Ref where
  root : Nat
  path : List CursorElement
  deriving DecidableEq, Repr

/-- The pointer to the child slot `c` of the node `p` points to. -/
def Ref.push (p : Ref) (c : CursorElement) : Ref :=
  { p with path := p.path ++ [c] }

/-- The node a pointer points to, in a store given by its list of roots. -/
def deref (heap : List Node) (p : Ref) : Option Node :=
  match heap[p.root]? with
  | some r => r.resolve p.path
  | none => none

/-- Applies `f` in place to the node a pointer points to. -/
def modify (heap : List Node) (p : Ref) (f : Node → Node) : List Node :=
  match heap[p.root]? with
  | some r => heap.set p.root (r.update f p.path)
  | none => heap

/-! ## The document -/

/-- Mirrors `Doc`. The clock comes from an external package and is never read by the
functions below; it is kept as the bytes it was seeded with. -/
structure Doc where
  Id : String
  Clock : String
  OperationsId : List String
  Head : Node
  OperationsBuffer : List Operation

/-- Mirrors `Init`. -/
def Init (id : String) : Doc :=
  let headNode := newNode .nil
  { Id := id, Clock := id, OperationsId := [], Head := headNode, OperationsBuffer := [] }

/-- Modelled from the spec: `containsId` is called by `ApplyRemoteOperation` but is not in
the source; the check is "if `op.ID` is already in `AppliedOps`". -/
def containsId (ids : List String) (id : String) : Bool :=
  ids.any (fun i => i == id)

/-- Modelled from the spec: `diff` is called by `ApplyRemoteOperation` but is not in the
source; it computes "the subset of `op.Deps` not yet in `AppliedOps`". -/
def diff (a b : List String) : List String :=
  a.filter (fun x => !containsId b x)

/-- The state of the loop of `traverse`: the store, the current node pointer and the two
lists of pointers the function returns. -/
structure Trav where
  heap : List Node
  nPtr : Ref
  travNodes : List Ref
  createdNodes : List Ref

/-- One round of the loop of `traverse`, for the cursor element `c`. The two cases of the
source (`op.MapT`, `op.ListT`) differ only in the container they look into and in the kind
they pass to `link`; `Node.child` and `c.Type` select these. When the child is missing a
new node is linked (the result of `link` is dropped, as in the source) and becomes the
current node: it is found under `c` if the container took it, and is a root of its own if
not. -/
def traverseStep (s : Trav) (c : CursorElement) : Trav :=
  let k := c.Get
  match deref s.heap (s.nPtr.push c) with
  | some _ =>
    -- exists
    let nPtr := s.nPtr.push c
    { s with nPtr := nPtr, travNodes := s.travNodes ++ [nPtr] }
  | none =>
    let nn := newNode k
    let heap := modify s.heap s.nPtr (fun cur => (cur.link c.Type nn).1)
    match deref heap (s.nPtr.push c) with
    | some _ =>
      let nPtr := s.nPtr.push c
      { heap := heap, nPtr := nPtr, travNodes := s.travNodes ++ [nPtr],
        createdNodes := s.createdNodes ++ [nPtr] }
    | none =>
      let nPtr : Ref := { root := heap.length, path := [] }
      { heap := heap ++ [nn], nPtr := nPtr, travNodes := s.travNodes ++ [nPtr],
        createdNodes := s.createdNodes ++ [nPtr] }

/-- The pointers of a traversal state are sound: the current pointer and every traversed
pointer point to a node of the store, and every traversed pointer under the root of the
current pointer lies on the path to it. -/
def Trav.valid (s : Trav) : Prop :=
  (deref s.heap s.nPtr).isSome ∧ (∀ p ∈ s.travNodes, (deref s.heap p).isSome) ∧
    (∀ p ∈ s.travNodes, p.root ≠ s.nPtr.root ∨ p.path <+: s.nPtr.path)

/-- The bookkeeping of a traversal state that started at the head `h₀`: no pointer is
listed twice, every created pointer is also listed as traversed, the head itself is not
listed, the head has the deps it started with, every traversed pointer that is not listed as
created points into the tree to a node that `h₀` had at that path, with the deps it had
there, every created pointer points to a node without deps, and either nothing was created
and the tree is as it was, or the current node is as `newNode` made it. -/
def Trav.tracks (h₀ : Node) (s : Trav) : Prop :=
  s.travNodes.Nodup ∧ s.createdNodes.Nodup ∧
  (∀ p ∈ s.createdNodes, p ∈ s.travNodes) ∧
  (∀ p ∈ s.travNodes, p ≠ { root := 0, path := [] }) ∧
  (∃ x, deref s.heap { root := 0, path := [] } = some x ∧ x.deps = h₀.deps) ∧
  (∀ p ∈ s.travNodes, p ∉ s.createdNodes →
    p.root = 0 ∧ ∃ x₀ x, h₀.resolve p.path = some x₀ ∧ deref s.heap p = some x ∧
      x.deps = x₀.deps) ∧
  (∀ p ∈ s.createdNodes, ∃ x, deref s.heap p = some x ∧ x.deps = []) ∧
  ((s.createdNodes = [] ∧ s.heap = [h₀] ∧ s.nPtr.root = 0) ∨
    ∃ k, deref s.heap s.nPtr = some (newNode k))

/-- The loop of `traverse` over the elements of a path. -/
def traverseFrom (s : Trav) (path : List CursorElement) : Trav :=
  path.foldl traverseStep s

/-- Mirrors `Doc.traverse`: walks from the head along the cursor, creating and linking the
nodes that are missing; returns the store after the walk, the pointer to the last node, the
pointers of the nodes traversed and the pointers of the nodes created. -/
def traverse (d : Doc) (cursor : Cursor) : Trav :=
  traverseFrom { heap := [d.Head], nPtr := { root := 0, path := [] },
                 travNodes := [], createdNodes := [] } cursor.Path

/-- The store after the dependency loop of `ApplyOperation`: `AddDependency(o.ID)` on every
traversed node, then on every created node. -/
def addDependencies (t : Trav) (id : String) : List Node :=
  let deps := ([] ++ t.travNodes) ++ t.createdNodes
  deps.foldl (fun heap n => modify heap n (fun x => x.AddDependency id)) t.heap

/-- The store after `ApplyOperation`, together with the pointer to the node that was
mutated and the error of `Mutate`. -/
structure Applied where
  heap : List Node
  nPtr : Ref
  err : Option String

/-- The body of `ApplyOperation` up to and including the call of `Mutate`. -/
def applyOperationHeap (d : Doc) (o : Operation) : Applied :=
  let t := traverse d o.Cursor
  -- updates dependencies of traversed and created nodes
  let heap := addDependencies t o.ID
  let err :=
    match deref heap t.nPtr with
    | some n => (n.Mutate o).2
    | none => none
  { heap := modify heap t.nPtr (fun n => (n.Mutate o).1), nPtr := t.nPtr, err := err }

/-- Mirrors `Doc.ApplyOperation`: returns the document after the call and the error, if
any. On an error the ID is not recorded; the effects of `traverse` stay. -/
def ApplyOperation (d : Doc) (o : Operation) : Doc × Option String :=
  let a := applyOperationHeap d o
  let d₁ := { d with Head := a.heap.headD d.Head }
  match a.err with
  | some err => (d₁, some err)
  | none => ({ d₁ with OperationsId := d₁.OperationsId ++ [o.ID] }, none)

/-- Mirrors `Doc.ApplyRemoteOperation`: returns the document after the call and the error,
if any. -/
def ApplyRemoteOperation (d : Doc) (o : Operation) : Doc × Option String :=
  -- if operation has been applied already, skip
  if containsId d.OperationsId o.ID then (d, none)
  else
    -- if operation dependencies havent been all applied in the document, buffer the
    -- operation
    let missingOp := diff o.Deps d.OperationsId
    if missingOp.length ≠ 0 then
      ({ d with OperationsBuffer := d.OperationsBuffer ++ [o] }, none)
    else ApplyOperation d o

/-- Delivers operations one by one through `ApplyRemoteOperation`. -/
def deliver (d : Doc) (ops : List Operation) : Doc :=
  ops.foldl (fun d o => (ApplyRemoteOperation d o).1) d

/-- An insert at the root that waits for nothing: no deps, the empty cursor, kind `Insert`
and an absent or string key. -/
def isRootInsert (o : Operation) : Bool :=
  o.Deps.isEmpty && o.Cursor.Path.isEmpty && decide (o.Mutation.Typ = .Insert) &&
    (match o.Mutation.Key with
     | .nil => true
     | .str _ => true
     | _ => false)

/-- Two operations do not compete: their IDs differ, and they do not write the same string
key. -/
def independent (a b : Operation) : Prop :=
  a.ID ≠ b.ID ∧ (a.Mutation.Key = b.Mutation.Key → a.Mutation.Key = .nil)

instance (a b : Operation) : Decidable (independent a b) := by
  unfold independent; infer_instance

/-! ## Example documents and operations -/

/-- A document that has applied the operation with ID `"A"`. -/
def docAppliedA : Doc :=
  { Id := "r", Clock := "r", OperationsId := ["A"], Head := newNode .nil,
    OperationsBuffer := [] }

/-- Operation `A` of the chain `A ← B ← C`: no dependencies. -/
def chainA : Operation :=
  { ID := "A", Deps := [], Cursor := { Path := [] },
    Mutation := { Typ := .Insert, Key := .str "x", Value := .int 1 } }

/-- Operation `B` of the chain `A ← B ← C`: depends on `A`. -/
def chainB : Operation :=
  { ID := "B", Deps := ["A"], Cursor := { Path := [] },
    Mutation := { Typ := .Insert, Key := .str "y", Value := .int 2 } }

/-- Operation `C` of the chain `A ← B ← C`: depends on `B`. -/
def chainC : Operation :=
  { ID := "C", Deps := ["B"], Cursor := { Path := [] },
    Mutation := { Typ := .Insert, Key := .str "z", Value := .int 3 } }

/-- Insert of `{"x": 1}` at the root. -/
def insX : Operation :=
  { ID := "A", Deps := [], Cursor := { Path := [] },
    Mutation := { Typ := .Insert, Key := .str "x", Value := .int 1 } }

/-- Insert of `{"y": 2}` at the root. -/
def insY : Operation :=
  { ID := "B", Deps := [], Cursor := { Path := [] },
    Mutation := { Typ := .Insert, Key := .str "y", Value := .int 2 } }

/-- A document whose node `"a"` under the root has the map children `"b"` and `"c"`. -/
def docABC : Doc :=
  { Id := "r", Clock := "r", OperationsId := [],
    Head := .mk .nil []
      [("a", .mk (.str "a") [] [("b", newNode (.str "b")), ("c", newNode (.str "c"))] [] [])]
      [] [],
    OperationsBuffer := [] }

/-- Delete targeted at the node `"a"`. -/
def delA : Operation :=
  { ID := "D", Deps := [], Cursor := { Path := [.MapKey "a"] },
    Mutation := { Typ := .Delete, Key := .nil, Value := .int 0 } }

/-- Insert of `{"a": {"b": 1}}` at the root. -/
def insAB : Operation :=
  { ID := "A", Deps := [], Cursor := { Path := [] },
    Mutation := { Typ := .Insert, Key := .str "a", Value := .json "\x7b\"b\":1\x7d" } }

/-- Assign of `5` at cursor `["a"]`. -/
def asgA : Operation :=
  { ID := "B", Deps := ["A"], Cursor := { Path := [.MapKey "a"] },
    Mutation := { Typ := .Assign, Key := .nil, Value := .int 5 } }

/-- A register write at the list index `1`, which a fresh document does not have. -/
def lostW1 : Operation :=
  { ID := "A", Deps := [], Cursor := { Path := [.ListKey 1] },
    Mutation := { Typ := .Insert, Key := .nil, Value := .int 1 } }

/-- A second register write at the same cursor as `lostW1`. -/
def lostW2 : Operation :=
  { ID := "B", Deps := [], Cursor := { Path := [.ListKey 1] },
    Mutation := { Typ := .Insert, Key := .nil, Value := .int 2 } }

/-- A register write at the root. -/
def regW1 : Operation :=
  { ID := "A", Deps := [], Cursor := { Path := [] },
    Mutation := { Typ := .Insert, Key := .nil, Value := .int 1 } }

/-- A second register write at the root. -/
def regW2 : Operation :=
  { ID := "B", Deps := [], Cursor := { Path := [] },
    Mutation := { Typ := .Assign, Key := .nil, Value := .int 2 } }

/-- A Delete at the root with an absent key. -/
def regDel : Operation :=
  { ID := "B", Deps := [], Cursor := { Path := [] },
    Mutation := { Typ := .Delete, Key := .nil, Value := .int 2 } }

/-- Insert of `{"x": 2}` at the root: the key of `insX`, another ID and value. -/
def insX2 : Operation :=
  { ID := "B", Deps := [], Cursor := { Path := [] },
    Mutation := { Typ := .Insert, Key := .str "x", Value := .int 2 } }

/-- An Insert at the root whose key is neither absent, a string nor an int. -/
def badIns : Operation :=
  { ID := "A", Deps := [], Cursor := { Path := [] },
    Mutation := { Typ := .Insert, Key := .other "float64", Value := .int 1 } }

/-- A Delete at the root whose key is neither absent, a string nor an int. -/
def badDel : Operation :=
  { ID := "A", Deps := [], Cursor := { Path := [] },
    Mutation := { Typ := .Delete, Key := .other "float64", Value := .int 1 } }

/-- An Insert with an unsupported key under the cursor `["a"]`. -/
def badInsA : Operation :=
  { ID := "A", Deps := [], Cursor := { Path := [.MapKey "a"] },
    Mutation := { Typ := .Insert, Key := .other "float64", Value := .int 1 } }

/-- An Insert with an unsupported key under the cursor `[1]`, a list index that a fresh
document does not have. -/
def badInsL : Operation :=
  { ID := "A", Deps := [], Cursor := { Path := [.ListKey 1] },
    Mutation := { Typ := .Insert, Key := .other "float64", Value := .int 1 } }

/-- Insert of the value `7` at the list index `0` of the root. -/
def insL0 : Operation :=
  { ID := "A", Deps := [], Cursor := { Path := [] },
    Mutation := { Typ := .Insert, Key := .int 0, Value := .int 7 } }

/-- Insert of the value `7` at the list index `5` of the root. -/
def insL5 : Operation :=
  { ID := "A", Deps := [], Cursor := { Path := [] },
    Mutation := { Typ := .Insert, Key := .int 5, Value := .int 7 } }

/-- Insert of `{"d": 1}` under the cursor `["a", "b"]`. -/
def insABd : Operation :=
  { ID := "E", Deps := [], Cursor := { Path := [.MapKey "a", .MapKey "b"] },
    Mutation := { Typ := .Insert, Key := .str "d", Value := .int 1 } }

/-- Insert of `{"d": 1}` under the cursor `["a", "z"]`; `docABC` has `"a"` and has no `"z"`
under it. -/
def insAZd : Operation :=
  { ID := "E", Deps := [], Cursor := { Path := [.MapKey "a", .MapKey "z"] },
    Mutation := { Typ := .Insert, Key := .str "d", Value := .int 1 } }

/-! ## Sequences of calls -/

/-- One call into a document: `ApplyRemoteOperation` or `ApplyOperation` (both are exported
by the package). -/
inductive Call where
  | remote (o : Operation)
  | direct (o : Operation)

/-- The document after a call. -/
def Call.run (d : Doc) : Call → Doc
  | .remote o => (ApplyRemoteOperation d o).1
  | .direct o => (ApplyOperation d o).1

/-- The document after a sequence of calls. -/
def runCalls (d : Doc) (cs : List Call) : Doc :=
  cs.foldl Call.run d

/-- Every direct call of `ApplyOperation` in the sequence is for an operation whose ID the
document has not applied at that point (a self-authored operation carries a fresh ID);
calls of `ApplyRemoteOperation` are not restricted. -/
def freshCalls : Doc → List Call → Bool
  | _, [] => true
  | d, .remote o :: cs => freshCalls (ApplyRemoteOperation d o).1 cs
  | d, .direct o :: cs => !containsId d.OperationsId o.ID && freshCalls (ApplyOperation d o).1 cs

/-! ## Breadth-first order, as the spec words it -/

/-- The nodes below a level in breadth-first order, following the words of the spec ("all
nodes at depth d before any node at depth d+1"): the nodes of `level`, then the nodes one
step deeper, which are the direct children of the nodes of `level` in order, and so on for
`depth` levels. Every child of a listed node is listed once, at the next level. -/
def bfsLevels : Nat → List Node → List Node
  | 0, _ => []
  | depth + 1, level => level ++ bfsLevels depth (level.flatMap directChildren)

/-! ## The package `types`: `Map` -/

namespace Types

/-- Modelled from the spec: the interface `CRDT` is used by map.go but is not declared in
the source. A value of it is an opaque payload; `none` is the nil interface (the "empty"
value). -/
abbrev CRDT := Option Value

/-- Mirrors `KV`. -/
structure KV where
  Key : String
  Value : CRDT
  deriving DecidableEq, Repr

/-- Mirrors `Map` (the embedded `Node` of the package has no fields that `Map` reads). -/
structure Map where
  KV : List Types.KV
  deriving DecidableEq, Repr

/-- Mirrors `NewMap`. -/
def NewMap : Map := { KV := [] }

/-- Mirrors `Map.Add`: appends an entry with the key and the nil value. -/
def Map.Add (m : Map) (key : String) : Map :=
  let kv : Types.KV := { Key := key, Value := none }
  { m with KV := m.KV ++ [kv] }

/-- Mirrors `Map.Get`: returns the map after the call and the value returned. The loop
returns the value of the first entry with the key; after the loop a `KV` with the key is
built and its (nil) value returned. The body has no statement that stores into `m`. -/
def Map.Get (m : Map) (key : String) : Map × CRDT :=
  match m.KV.find? (fun kv => kv.Key == key) with
  | some kv => (m, kv.Value)
  | none =>
    let nKv : Types.KV := { Key := key, Value := none }
    (m, nKv.Value)

/-- Mirrors `Map.Keys`. -/
def Map.Keys (m : Map) : List String :=
  m.KV.foldl (fun keys kv => keys ++ [kv.Key]) []

/-- Mirrors `Map.Values`. -/
def Map.Values (m : Map) : List CRDT :=
  m.KV.foldl (fun vals kv => vals ++ [kv.Value]) []

end Types

/-! ## Containers: lookup after update -/

theorem keyCode_injective {a b : String} (h : keyCode a = keyCode b) : a = b := by
  unfold keyCode at h
  have hinj : Function.Injective Char.toNat := by
    intro x y hxy
    apply Char.ext
    apply UInt32.ext
    simpa [Char.toNat, UInt32.toNat] using hxy
  exact String.ext (List.map_injective_iff.mpr hinj h)

theorem hGet_hPut_same {α : Type} (m : List (String × α)) (k : String) (v : α) :
    hGet (hPut m k v) k = some v := by
  induction m with
  | nil => simp [hPut, hGet]
  | cons kv t ih =>
    obtain ⟨k', v'⟩ := kv
    by_cases h1 : k = k'
    · simp [hPut, hGet, h1]
    · by_cases h2 : keyCode k < keyCode k'
      · simp [hPut, hGet, h1, h2]
      · simp [hPut, hGet, h1, h2, ih]

theorem hGet_hPut_ne {α : Type} (m : List (String × α)) (k k' : String) (v : α)
    (h : k' ≠ k) : hGet (hPut m k v) k' = hGet m k' := by
  induction m with
  | nil => simp [hPut, hGet, h]
  | cons kv t ih =>
    obtain ⟨k₀, v₀⟩ := kv
    by_cases h1 : k = k₀
    · subst h1; simp [hPut, hGet, h]
    · by_cases h2 : keyCode k < keyCode k₀
      · simp [hPut, hGet, h1, h2, h]
      · by_cases h3 : k' = k₀
        · simp [hPut, hGet, h1, h2, h3]
        · simp [hPut, hGet, h1, h2, h3, ih]

theorem hPut_comm {α : Type} (m : List (String × α)) (a b : String) (x y : α)
    (h : a ≠ b) : hPut (hPut m a x) b y = hPut (hPut m b y) a x := by
  have hne : keyCode a ≠ keyCode b := fun e => h (keyCode_injective e)
  have hba : b ≠ a := fun e => h e.symm
  induction m with
  | nil =>
    rcases lt_trichotomy (keyCode a) (keyCode b) with hlt | heq | hgt
    · simp [hPut, h, hba, hlt, lt_asymm hlt]
    · exact absurd heq hne
    · simp [hPut, h, hba, hgt, lt_asymm hgt]
  | cons kv t ih =>
    obtain ⟨k, v⟩ := kv
    have hirr : ∀ c : String, ¬ keyCode c < keyCode c := fun c => lt_irrefl _
    by_cases ha : a = k
    · subst ha
      by_cases hbk : keyCode b < keyCode a
      · simp [hPut, h, hba, hbk, lt_asymm hbk]
      · simp [hPut, h, hba, hbk]
    · by_cases hb : b = k
      · subst hb
        by_cases hak : keyCode a < keyCode b
        · simp [hPut, h, hba, hak, lt_asymm hak]
        · simp [hPut, h, hba, hak]
      · by_cases hak : keyCode a < keyCode k
        · by_cases hbk : keyCode b < keyCode k
          · rcases lt_trichotomy (keyCode a) (keyCode b) with hlt | heq | hgt
            · simp [hPut, h, hba, ha, hb, hak, hbk, hlt, lt_asymm hlt]
            · exact absurd heq hne
            · simp [hPut, h, hba, ha, hb, hak, hbk, hgt, lt_asymm hgt]
          · have hab : keyCode a < keyCode b := by
              rcases lt_trichotomy (keyCode b) (keyCode k) with h1 | h1 | h1
              · exact absurd h1 hbk
              · exact absurd (keyCode_injective h1) hb
              · exact lt_trans hak h1
            simp [hPut, h, hba, ha, hb, hak, hbk, hab, lt_asymm hab]
        · by_cases hbk : keyCode b < keyCode k
          · have hab : keyCode b < keyCode a := by
              rcases lt_trichotomy (keyCode a) (keyCode k) with h1 | h1 | h1
              · exact absurd h1 hak
              · exact absurd (keyCode_injective h1) ha
              · exact lt_trans hbk h1
            simp [hPut, h, hba, ha, hb, hak, hbk, hab, lt_asymm hab]
          · simp [hPut, h, hba, ha, hb, hak, hbk, ih]


/-! ## The gate of `ApplyRemoteOperation` -/

theorem containsId_iff (ids : List String) (id : String) :
    containsId ids id = true ↔ id ∈ ids := by
  simp [containsId]

theorem diff_eq_nil_iff (a b : List String) : diff a b = [] ↔ ∀ x ∈ a, x ∈ b := by
  simp [diff, List.filter_eq_nil_iff, containsId]

/-- C1: an operation whose ID is already in `OperationsId` is skipped by
`ApplyRemoteOperation`: no error, and the document (node tree, `OperationsId`,
`OperationsBuffer`) is exactly what it was, whatever the cursor, mutation and deps. -/
theorem applyRemote_applied_noop (d : Doc) (o : Operation) (h : o.ID ∈ d.OperationsId) :
    ApplyRemoteOperation d o = (d, none) := by
  have hc : containsId d.OperationsId o.ID = true := (containsId_iff _ _).mpr h
  simp [ApplyRemoteOperation, hc]

theorem applyRemote_applied_noop_witness :
    chainA.ID ∈ docAppliedA.OperationsId ∧ ApplyRemoteOperation docAppliedA chainA = (docAppliedA, none) :=
  ⟨by decide, applyRemote_applied_noop docAppliedA chainA (by decide)⟩

/-- C2: an operation that is not applied yet and has a dependency outside `OperationsId` is
buffered by `ApplyRemoteOperation`: no error, the operation becomes the last element of
`OperationsBuffer`, and the node tree and `OperationsId` are unchanged. -/
theorem applyRemote_missing_dep_buffers (d : Doc) (o : Operation)
    (hid : o.ID ∉ d.OperationsId) (hdep : ∃ x ∈ o.Deps, x ∉ d.OperationsId) :
    (ApplyRemoteOperation d o).2 = none ∧
    (ApplyRemoteOperation d o).1.OperationsBuffer = d.OperationsBuffer ++ [o] ∧
    (ApplyRemoteOperation d o).1.Head = d.Head ∧
    (ApplyRemoteOperation d o).1.OperationsId = d.OperationsId := by
  have hc : containsId d.OperationsId o.ID = false := by
    rw [← Bool.not_eq_true, containsId_iff]; exact hid
  have hd : diff o.Deps d.OperationsId ≠ [] := by
    rw [Ne, diff_eq_nil_iff]
    obtain ⟨x, hx, hx'⟩ := hdep
    exact fun hall => hx' (hall x hx)
  have hl : (diff o.Deps d.OperationsId).length ≠ 0 := by
    simpa [List.length_eq_zero] using hd
  simp [ApplyRemoteOperation, hc, hl]

theorem applyRemote_missing_dep_buffers_witness :
    (ApplyRemoteOperation (Init "r") chainB).2 = none ∧
    (ApplyRemoteOperation (Init "r") chainB).1.OperationsBuffer
      = (Init "r").OperationsBuffer ++ [chainB] ∧
    (ApplyRemoteOperation (Init "r") chainB).1.Head = (Init "r").Head ∧
    (ApplyRemoteOperation (Init "r") chainB).1.OperationsId = (Init "r").OperationsId :=
  applyRemote_missing_dep_buffers (Init "r") chainB (by decide) ⟨"A", by decide, by decide⟩


/-! ## Operations at the root -/

theorem applyOperationHeap_root (d : Doc) (o : Operation) (h : o.Cursor.Path = []) :
    applyOperationHeap d o =
      { heap := [(d.Head.Mutate o).1], nPtr := { root := 0, path := [] },
        err := (d.Head.Mutate o).2 } := by
  simp [applyOperationHeap, traverse, traverseFrom, addDependencies, deref, modify,
    Node.resolve, Node.update, h]

theorem ApplyOperation_root (d : Doc) (o : Operation) (h : o.Cursor.Path = []) :
    ApplyOperation d o =
      match (d.Head.Mutate o).2 with
      | some err => ({ d with Head := (d.Head.Mutate o).1 }, some err)
      | none =>
        ({ d with Head := (d.Head.Mutate o).1, OperationsId := d.OperationsId ++ [o.ID] },
          none) := by
  simp [ApplyOperation, applyOperationHeap_root d o h]

theorem ApplyOperation_buffer (d : Doc) (o : Operation) :
    (ApplyOperation d o).1.OperationsBuffer = d.OperationsBuffer := by
  simp only [ApplyOperation]
  split <;> rfl

theorem ApplyOperation_ids (d : Doc) (o : Operation) :
    (ApplyOperation d o).1.OperationsId =
      if (ApplyOperation d o).2 = none then d.OperationsId ++ [o.ID] else d.OperationsId := by
  rcases h : (applyOperationHeap d o).err with _ | e <;> simp [ApplyOperation, h]

/-- C3, counterexample: `chainC`, `chainB`, `chainA` delivered in this order to a fresh
document do not end with all three applied and an empty buffer. -/
theorem drain_cascade_counterexample :
    ¬ ("A" ∈ (deliver (Init "r") [chainC, chainB, chainA]).OperationsId ∧
       "B" ∈ (deliver (Init "r") [chainC, chainB, chainA]).OperationsId ∧
       "C" ∈ (deliver (Init "r") [chainC, chainB, chainA]).OperationsId ∧
       (deliver (Init "r") [chainC, chainB, chainA]).OperationsBuffer = []) := by
  decide


theorem ApplyRemoteOperation_ready (d : Doc) (o : Operation)
    (hid : o.ID ∉ d.OperationsId) (hdep : ∀ x ∈ o.Deps, x ∈ d.OperationsId) :
    ApplyRemoteOperation d o = ApplyOperation d o := by
  have hc : containsId d.OperationsId o.ID = false := by
    rw [← Bool.not_eq_true, containsId_iff]; exact hid
  have hd : diff o.Deps d.OperationsId = [] := (diff_eq_nil_iff _ _).mpr hdep
  simp [ApplyRemoteOperation, hc, hd]

theorem ApplyRemoteOperation_blocked (d : Doc) (o : Operation)
    (hid : o.ID ∉ d.OperationsId) (hdep : ∃ x ∈ o.Deps, x ∉ d.OperationsId) :
    ApplyRemoteOperation d o = ({ d with OperationsBuffer := d.OperationsBuffer ++ [o] }, none) := by
  have hc : containsId d.OperationsId o.ID = false := by
    rw [← Bool.not_eq_true, containsId_iff]; exact hid
  have hd : diff o.Deps d.OperationsId ≠ [] := by
    rw [Ne, diff_eq_nil_iff]
    obtain ⟨x, hx, hx'⟩ := hdep
    exact fun hall => hx' (hall x hx)
  have hl : (diff o.Deps d.OperationsId).length ≠ 0 := by
    simpa [List.length_eq_zero] using hd
  simp [ApplyRemoteOperation, hc, hl]

/-- C3 (amended): `ApplyRemoteOperation` never drains the buffer. When it applies a ready
operation (not applied yet, all deps applied) `OperationsBuffer` is left exactly as it was,
and on success only the ID of that operation is appended to `OperationsId`. For operations
`A` (no deps), `B` (deps `[A.ID]`) and `C` (deps `[B.ID]`) delivered to a fresh document in
the order `C, B, A`, after the third call `OperationsBuffer` is `[C, B]` and `OperationsId`
is `[A.ID]` (or empty, when the mutation of `A` fails). -/
theorem applyRemote_ready_keeps_buffer :
    (∀ (d : Doc) (o : Operation), o.ID ∉ d.OperationsId →
      (∀ x ∈ o.Deps, x ∈ d.OperationsId) →
      (ApplyRemoteOperation d o).1.OperationsBuffer = d.OperationsBuffer ∧
      ((ApplyRemoteOperation d o).2 = none →
        (ApplyRemoteOperation d o).1.OperationsId = d.OperationsId ++ [o.ID])) ∧
    (∀ (id : String) (A B C : Operation), A.Deps = [] → B.Deps = [A.ID] → C.Deps = [B.ID] →
      (deliver (Init id) [C, B, A]).OperationsBuffer = [C, B] ∧
      ((deliver (Init id) [C, B, A]).OperationsId = [A.ID] ∨
       (deliver (Init id) [C, B, A]).OperationsId = [])) := by
  refine ⟨?_, ?_⟩
  · intro d o hid hdep
    rw [ApplyRemoteOperation_ready d o hid hdep]
    refine ⟨ApplyOperation_buffer d o, fun h => ?_⟩
    rw [ApplyOperation_ids, if_pos h]
  · intro id A B C hA hB hC
    have h1 : ApplyRemoteOperation (Init id) C
        = ({ Init id with OperationsBuffer := [C] }, none) := by
      rw [ApplyRemoteOperation_blocked (Init id) C (by simp [Init])
        ⟨B.ID, by simp [hC], by simp [Init]⟩]
      simp [Init]
    have h2 : ApplyRemoteOperation { Init id with OperationsBuffer := [C] } B
        = ({ Init id with OperationsBuffer := [C, B] }, none) := by
      rw [ApplyRemoteOperation_blocked _ B (by simp [Init])
        ⟨A.ID, by simp [hB], by simp [Init]⟩]
      rfl
    have h3 : ApplyRemoteOperation { Init id with OperationsBuffer := [C, B] } A
        = ApplyOperation { Init id with OperationsBuffer := [C, B] } A :=
      ApplyRemoteOperation_ready _ A (by simp [Init]) (by simp [hA])
    simp only [deliver, List.foldl_cons, List.foldl_nil, h1, h2, h3]
    refine ⟨by rw [ApplyOperation_buffer], ?_⟩
    rw [ApplyOperation_ids]
    by_cases h : (ApplyOperation { Init id with OperationsBuffer := [C, B] } A).2 = none
    · left; rw [if_pos h]; simp [Init]
    · right; rw [if_neg h]; simp [Init]

theorem applyRemote_ready_keeps_buffer_witness :
    (deliver (Init "r") [chainC, chainB, chainA]).OperationsBuffer = [chainC, chainB] ∧
    ((deliver (Init "r") [chainC, chainB, chainA]).OperationsId = [chainA.ID] ∨
     (deliver (Init "r") [chainC, chainB, chainA]).OperationsId = []) :=
  applyRemote_ready_keeps_buffer.2 "r" chainA chainB chainC rfl rfl rfl

/-! ## Concurrent inserts at the root -/

theorem Mutate_insert_str (n : Node) (o : Operation) (k : String)
    (ht : o.Mutation.Typ = .Insert) (hk : o.Mutation.Key = .str k) :
    n.Mutate o =
      (n.setHmap (hPut n.hmap k (.mk (.str k) [] [] [] [(o.ID, o.Mutation.Value)])), none) := by
  simp [Node.Mutate, ht, hk, newNode, Node.setReg, Node.reg, hPut]

theorem Mutate_insert_nil (n : Node) (o : Operation)
    (ht : o.Mutation.Typ = .Insert) (hk : o.Mutation.Key = .nil) :
    n.Mutate o = (n.setReg (hPut n.reg o.ID o.Mutation.Value), none) := by
  simp [Node.Mutate, ht, hk]

/-- C5: two Insert operations with distinct IDs, no deps, the root cursor and distinct
string keys commute: applied in either order to fresh documents (through `ApplyOperation`
or through `ApplyRemoteOperation`) they yield identical node trees. -/
theorem concurrent_map_inserts_commute (id₁ id₂ : String) (A B : Operation) (ka kb : String)
    (hid : A.ID ≠ B.ID) (hdA : A.Deps = []) (hdB : B.Deps = [])
    (hcA : A.Cursor.Path = []) (hcB : B.Cursor.Path = [])
    (htA : A.Mutation.Typ = .Insert) (htB : B.Mutation.Typ = .Insert)
    (hkA : A.Mutation.Key = .str ka) (hkB : B.Mutation.Key = .str kb) (hk : ka ≠ kb) :
    (ApplyOperation (ApplyOperation (Init id₁) A).1 B).1.Head
      = (ApplyOperation (ApplyOperation (Init id₂) B).1 A).1.Head ∧
    (ApplyRemoteOperation (ApplyRemoteOperation (Init id₁) A).1 B).1.Head
      = (ApplyRemoteOperation (ApplyRemoteOperation (Init id₂) B).1 A).1.Head := by
  have key : (ApplyOperation (ApplyOperation (Init id₁) A).1 B).1.Head
      = (ApplyOperation (ApplyOperation (Init id₂) B).1 A).1.Head := by
    simp only [ApplyOperation_root _ _ hcA, ApplyOperation_root _ _ hcB,
      Mutate_insert_str _ _ _ htA hkA, Mutate_insert_str _ _ _ htB hkB]
    simp only [Init, newNode, Node.setHmap, Node.hmap]
    rw [hPut_comm _ ka kb _ _ hk]
  refine ⟨key, ?_⟩
  have hA1 : ApplyRemoteOperation (Init id₁) A = ApplyOperation (Init id₁) A :=
    ApplyRemoteOperation_ready _ _ (by simp [Init]) (by simp [hdA])
  have hB2 : ApplyRemoteOperation (Init id₂) B = ApplyOperation (Init id₂) B :=
    ApplyRemoteOperation_ready _ _ (by simp [Init]) (by simp [hdB])
  have hB1 : ApplyRemoteOperation (ApplyOperation (Init id₁) A).1 B
      = ApplyOperation (ApplyOperation (Init id₁) A).1 B := by
    apply ApplyRemoteOperation_ready _ _ _ (by simp [hdB])
    rw [ApplyOperation_ids]
    split <;> simp [Init, Ne.symm hid]
  have hA2 : ApplyRemoteOperation (ApplyOperation (Init id₂) B).1 A
      = ApplyOperation (ApplyOperation (Init id₂) B).1 A := by
    apply ApplyRemoteOperation_ready _ _ _ (by simp [hdA])
    rw [ApplyOperation_ids]
    split <;> simp [Init, hid]
  rw [hA1, hB2, hB1, hA2]
  exact key

theorem concurrent_map_inserts_commute_witness :
    (ApplyOperation (ApplyOperation (Init "r1") insX).1 insY).1.Head
      = (ApplyOperation (ApplyOperation (Init "r2") insY).1 insX).1.Head ∧
    (ApplyRemoteOperation (ApplyRemoteOperation (Init "r1") insX).1 insY).1.Head
      = (ApplyRemoteOperation (ApplyRemoteOperation (Init "r2") insY).1 insX).1.Head :=
  concurrent_map_inserts_commute "r1" "r2" insX insY "x" "y" (by decide) rfl rfl rfl rfl
    rfl rfl rfl rfl (by decide)


/-! ## Delivery order -/

/-- C4, counterexample: `insX` and `insX2` have distinct IDs and write the same key; the
two delivery orders leave different trees (the operation delivered last wins). -/
theorem delivery_order_counterexample :
    (deliver (Init "r1") [insX, insX2]).Head ≠ (deliver (Init "r2") [insX2, insX]).Head := by
  decide

theorem isRootInsert_iff (o : Operation) :
    isRootInsert o = true ↔
      o.Deps = [] ∧ o.Cursor.Path = [] ∧ o.Mutation.Typ = .Insert ∧
        (o.Mutation.Key = .nil ∨ ∃ k, o.Mutation.Key = .str k) := by
  unfold isRootInsert
  cases hk : o.Mutation.Key <;> simp [List.isEmpty_iff, and_assoc]

theorem Mutate_rootInsert_err (n : Node) (o : Operation) (h : isRootInsert o = true) :
    (n.Mutate o).2 = none := by
  obtain ⟨_, _, ht, hk | ⟨k, hk⟩⟩ := (isRootInsert_iff o).mp h
  · rw [Mutate_insert_nil n o ht hk]
  · rw [Mutate_insert_str n o k ht hk]

theorem ApplyRemoteOperation_rootInsert (d : Doc) (o : Operation)
    (h : isRootInsert o = true) (hid : o.ID ∉ d.OperationsId) :
    ApplyRemoteOperation d o =
      ({ d with Head := (d.Head.Mutate o).1, OperationsId := d.OperationsId ++ [o.ID] },
        none) := by
  obtain ⟨hd, hc, _, _⟩ := (isRootInsert_iff o).mp h
  rw [ApplyRemoteOperation_ready d o hid (by simp [hd]), ApplyOperation_root d o hc,
    Mutate_rootInsert_err d.Head o h]

theorem deliver_rootInserts (l : List Operation) :
    ∀ d : Doc, (∀ o ∈ l, isRootInsert o = true) → (l.map Operation.ID).Nodup →
      (∀ o ∈ l, o.ID ∉ d.OperationsId) →
      (deliver d l).Head = l.foldl (fun n o => (n.Mutate o).1) d.Head := by
  induction l with
  | nil => intro d _ _ _; rfl
  | cons o t ih =>
    intro d hall hnd hfresh
    have ho := hall o (List.mem_cons_self _ _)
    have hoid := hfresh o (List.mem_cons_self _ _)
    rw [List.map_cons, List.nodup_cons] at hnd
    simp only [deliver, List.foldl_cons]
    rw [ApplyRemoteOperation_rootInsert d o ho hoid]
    have := ih { d with Head := (d.Head.Mutate o).1, OperationsId := d.OperationsId ++ [o.ID] }
      (fun x hx => hall x (List.mem_cons_of_mem _ hx)) hnd.2
      (fun x hx => by
        simp only [List.mem_append, List.mem_singleton, not_or]
        refine ⟨hfresh x (List.mem_cons_of_mem _ hx), fun e => hnd.1 ?_⟩
        rw [← e]
        exact List.mem_map_of_mem _ hx)
    simpa [deliver] using this

theorem Mutate_rootInsert_comm (n : Node) (a b : Operation)
    (ha : isRootInsert a = true) (hb : isRootInsert b = true) (hab : independent a b) :
    (((n.Mutate a).1).Mutate b).1 = (((n.Mutate b).1).Mutate a).1 := by
  obtain ⟨_, _, hta, hka⟩ := (isRootInsert_iff a).mp ha
  obtain ⟨_, _, htb, hkb⟩ := (isRootInsert_iff b).mp hb
  obtain ⟨k, d, h, l, r⟩ := n
  rcases hka with hka | ⟨ka, hka⟩ <;> rcases hkb with hkb | ⟨kb, hkb⟩
  · simp only [Mutate_insert_nil _ _ hta hka, Mutate_insert_nil _ _ htb hkb, Node.setReg,
      Node.reg]
    rw [hPut_comm _ _ _ _ _ hab.1]
  · simp only [Mutate_insert_nil _ _ hta hka, Mutate_insert_str _ _ _ htb hkb, Node.setReg,
      Node.reg, Node.setHmap, Node.hmap]
  · simp only [Mutate_insert_str _ _ _ hta hka, Mutate_insert_nil _ _ htb hkb, Node.setReg,
      Node.reg, Node.setHmap, Node.hmap]
  · have hne : ka ≠ kb := by
      intro e
      have := hab.2 (by rw [hka, hkb, e])
      rw [hka] at this
      cases this
    simp only [Mutate_insert_str _ _ _ hta hka, Mutate_insert_str _ _ _ htb hkb,
      Node.setHmap, Node.hmap]
    rw [hPut_comm _ _ _ _ _ hne]

/-- C4 (amended): delivery order does not matter for operations that do not compete. For
every list of root inserts (no deps, empty cursor, kind `Insert`, absent or string key)
with pairwise distinct IDs and pairwise distinct string keys, and every reordering of it,
delivering the operations one by one through `ApplyRemoteOperation` to two fresh documents
yields equal node trees. -/
theorem root_inserts_converge (id₁ id₂ : String) (l₁ l₂ : List Operation)
    (hperm : l₁.Perm l₂) (hall : ∀ o ∈ l₁, isRootInsert o = true)
    (hind : l₁.Pairwise independent) :
    (deliver (Init id₁) l₁).Head = (deliver (Init id₂) l₂).Head := by
  have hsymm : Symmetric independent := fun a b h =>
    ⟨fun e => h.1 e.symm, fun e => by rw [e]; exact h.2 e.symm⟩
  have hnd₁ : (l₁.map Operation.ID).Nodup := by
    rw [List.Nodup, List.pairwise_map]
    exact hind.imp (fun h => h.1)
  have hnd₂ : (l₂.map Operation.ID).Nodup := (hperm.map _).nodup_iff.mp hnd₁
  rw [deliver_rootInserts l₁ (Init id₁) hall hnd₁ (by simp [Init]),
    deliver_rootInserts l₂ (Init id₂) (fun o ho => hall o (hperm.mem_iff.mpr ho)) hnd₂
      (by simp [Init])]
  have hhead : (Init id₁).Head = (Init id₂).Head := rfl
  rw [hhead]
  apply hperm.foldl_eq'
  intro x hx y hy z
  by_cases hxy : x = y
  · rw [hxy]
  · exact (Mutate_rootInsert_comm z x y (hall x hx) (hall y hy)
      (hind.forall hsymm hx hy hxy))

theorem root_inserts_converge_witness :
    (deliver (Init "r1") [insX, insY]).Head = (deliver (Init "r2") [insY, insX]).Head :=
  root_inserts_converge "r1" "r2" [insX, insY] [insY, insX] (List.Perm.swap _ _ _)
    (by decide) (by decide)

/-! ## Fields of a node after an update -/

section Fields
variable (n : Node) (d : List String) (h : List (String × Node)) (l : List Node)
  (r : List (String × Value))

@[simp] theorem Node.key_setDeps : (n.setDeps d).key = n.key := by cases n; rfl
@[simp] theorem Node.deps_setDeps : (n.setDeps d).deps = d := by cases n; rfl
@[simp] theorem Node.hmap_setDeps : (n.setDeps d).hmap = n.hmap := by cases n; rfl
@[simp] theorem Node.list_setDeps : (n.setDeps d).list = n.list := by cases n; rfl
@[simp] theorem Node.reg_setDeps : (n.setDeps d).reg = n.reg := by cases n; rfl
@[simp] theorem Node.key_setHmap : (n.setHmap h).key = n.key := by cases n; rfl
@[simp] theorem Node.deps_setHmap : (n.setHmap h).deps = n.deps := by cases n; rfl
@[simp] theorem Node.hmap_setHmap : (n.setHmap h).hmap = h := by cases n; rfl
@[simp] theorem Node.list_setHmap : (n.setHmap h).list = n.list := by cases n; rfl
@[simp] theorem Node.reg_setHmap : (n.setHmap h).reg = n.reg := by cases n; rfl
@[simp] theorem Node.key_setList : (n.setList l).key = n.key := by cases n; rfl
@[simp] theorem Node.deps_setList : (n.setList l).deps = n.deps := by cases n; rfl
@[simp] theorem Node.hmap_setList : (n.setList l).hmap = n.hmap := by cases n; rfl
@[simp] theorem Node.list_setList : (n.setList l).list = l := by cases n; rfl
@[simp] theorem Node.reg_setList : (n.setList l).reg = n.reg := by cases n; rfl
@[simp] theorem Node.key_setReg : (n.setReg r).key = n.key := by cases n; rfl
@[simp] theorem Node.deps_setReg : (n.setReg r).deps = n.deps := by cases n; rfl
@[simp] theorem Node.hmap_setReg : (n.setReg r).hmap = n.hmap := by cases n; rfl
@[simp] theorem Node.list_setReg : (n.setReg r).list = n.list := by cases n; rfl
@[simp] theorem Node.reg_setReg : (n.setReg r).reg = r := by cases n; rfl

end Fields

@[simp] theorem Node.deps_AddDependency (n : Node) (id : String) :
    (n.AddDependency id).deps = n.deps ++ [id] := by simp [Node.AddDependency]

@[simp] theorem Node.reg_AddDependency (n : Node) (id : String) :
    (n.AddDependency id).reg = n.reg := by simp [Node.AddDependency]

@[simp] theorem Node.child_AddDependency (n : Node) (id : String) (c : CursorElement) :
    (n.AddDependency id).child c = n.child c := by
  cases c <;> simp [Node.AddDependency, Node.child]

theorem Node.deps_link (n : Node) (t : LinkType) (nn : Node) : (n.link t nn).1.deps = n.deps := by
  unfold Node.link
  cases t <;> simp <;> cases nn.key <;> simp

@[simp] theorem Node.deps_setChildren (n : Node) (ns : List Node) :
    (n.setChildren ns).deps = n.deps := by simp [Node.setChildren]

@[simp] theorem Node.reg_setChildren (n : Node) (ns : List Node) :
    (n.setChildren ns).reg = n.reg := by simp [Node.setChildren]

@[simp] theorem Node.key_setChildren (n : Node) (ns : List Node) :
    (n.setChildren ns).key = n.key := by simp [Node.setChildren]

theorem hKeys_setValues (h : List (String × Node)) :
    ∀ ns : List Node, hKeys (setValues h ns) = hKeys h := by
  induction h with
  | nil => intro ns; rfl
  | cons kv t ih =>
    intro ns
    obtain ⟨k, v⟩ := kv
    cases ns with
    | nil => rfl
    | cons c cs =>
      simp only [setValues, hKeys, List.map_cons] at ih ⊢
      rw [ih cs]

theorem length_setElems (l : List Node) :
    ∀ ns : List Node, (setElems l ns).length = l.length := by
  induction l with
  | nil => intro ns; rfl
  | cons c t ih =>
    intro ns
    cases ns with
    | nil => rfl
    | cons c' cs => simp [setElems, ih cs]

theorem Node.hKeys_setChildren (n : Node) (ns : List Node) :
    hKeys (n.setChildren ns).hmap = hKeys n.hmap := by
  simp [Node.setChildren, hKeys_setValues]

theorem Node.length_setChildren (n : Node) (ns : List Node) :
    (n.setChildren ns).list.length = n.list.length := by
  simp [Node.setChildren, length_setElems]

theorem Node.deps_Mutate (n : Node) (o : Operation) : (n.Mutate o).1.deps = n.deps := by
  rcases ht : o.Mutation.Typ <;> rcases hk : o.Mutation.Key <;>
    simp [Node.Mutate, ht, hk]

/-! ## Children of a node after an update -/

theorem aGet_isSome {α : Type} (l : List α) (i : Int) :
    (aGet l i).isSome ↔ 0 ≤ i ∧ i < l.length := by
  unfold aGet
  by_cases h : 0 ≤ i ∧ i < l.length
  · have : i.toNat < l.length := by omega
    simp [h, List.get?_eq_get this]
  · simp [h]

theorem aGet_set_same {α : Type} (l : List α) (i : Int) (v : α) (h : (aGet l i).isSome) :
    aGet (l.set i.toNat v) i = some v := by
  rw [aGet_isSome] at h
  have : i.toNat < l.length := by omega
  simp [aGet, h, this]

theorem aGet_set_ne {α : Type} (l : List α) (i j : Int) (v : α) (h : (aGet l i).isSome)
    (hne : j ≠ i) : aGet (l.set i.toNat v) j = aGet l j := by
  rw [aGet_isSome] at h
  unfold aGet
  by_cases hj : 0 ≤ j ∧ j < l.length
  · have : i.toNat ≠ j.toNat := by omega
    simp [hj, List.getElem?_set_ne this]
  · simp [hj]

theorem Node.child_setChild_same (n : Node) (c : CursorElement) (ch : Node)
    (h : (n.child c).isSome) : (n.setChild c ch).child c = some ch := by
  cases c with
  | MapKey k => simp [Node.setChild, Node.child, hGet_hPut_same]
  | ListKey i => simpa [Node.setChild, Node.child] using aGet_set_same n.list i ch h

theorem Node.child_setChild_ne (n : Node) (c c' : CursorElement) (ch : Node)
    (h : (n.child c).isSome) (hne : c' ≠ c) : (n.setChild c ch).child c' = n.child c' := by
  cases c with
  | MapKey k =>
    cases c' with
    | MapKey k' =>
      have : k' ≠ k := fun e => hne (by rw [e])
      simp [Node.setChild, Node.child, hGet_hPut_ne _ _ _ _ this]
    | ListKey j => simp [Node.setChild, Node.child]
  | ListKey i =>
    cases c' with
    | MapKey k' => simp [Node.setChild, Node.child]
    | ListKey j =>
      have : j ≠ i := fun e => hne (by rw [e])
      simpa [Node.setChild, Node.child] using aGet_set_ne n.list i j ch h this

@[simp] theorem Node.deps_setChild (n : Node) (c : CursorElement) (ch : Node) :
    (n.setChild c ch).deps = n.deps := by cases c <;> simp [Node.setChild]

@[simp] theorem Node.reg_setChild (n : Node) (c : CursorElement) (ch : Node) :
    (n.setChild c ch).reg = n.reg := by cases c <;> simp [Node.setChild]

/-! ## Pointers after an update -/

theorem Node.resolve_append (p q : List CursorElement) :
    ∀ n : Node, n.resolve (p ++ q) = (n.resolve p).bind (fun x => x.resolve q) := by
  induction p with
  | nil => intro n; rfl
  | cons c cs ih =>
    intro n
    simp only [List.cons_append, Node.resolve]
    cases n.child c with
    | none => rfl
    | some ch => exact ih ch

theorem Node.resolve_update_pfx (f : Node → Node) (q : List CursorElement) :
    ∀ (p : List CursorElement) (n x : Node), n.resolve p = some x →
      (n.update f (p ++ q)).resolve p = some (x.update f q) := by
  intro p
  induction p with
  | nil => intro n x h; simp only [Node.resolve, Option.some.injEq] at h; subst h; rfl
  | cons c cs ih =>
    intro n x h
    simp only [Node.resolve] at h
    cases hc : n.child c with
    | none => simp [hc] at h
    | some ch =>
      simp only [hc] at h
      simp only [List.cons_append, Node.update, hc, Node.resolve]
      rw [Node.child_setChild_same n c _ (by simp [hc])]
      exact ih ch x h

theorem Node.resolve_update_same (f : Node → Node) (p : List CursorElement) (n x : Node)
    (h : n.resolve p = some x) : (n.update f p).resolve p = some (f x) := by
  have := Node.resolve_update_pfx f [] p n x h
  simpa [Node.update] using this

theorem Node.resolve_update_addDep (id : String) (q : List CursorElement) :
    ∀ (n : Node) (p : List CursorElement) (x : Node), n.resolve p = some x →
      ∃ x', (n.update (fun y => y.AddDependency id) q).resolve p = some x' ∧
        x.deps ⊆ x'.deps ∧ x'.reg = x.reg ∧ (p = q → id ∈ x'.deps) := by
  induction q with
  | nil =>
    intro n p x h
    cases p with
    | nil =>
      simp only [Node.resolve, Option.some.injEq] at h
      subst h
      exact ⟨_, rfl, by simp [Node.update], by simp [Node.update],
        fun _ => by simp [Node.update]⟩
    | cons c cs =>
      refine ⟨x, ?_, fun _ hx => hx, rfl, fun e => by cases e⟩
      simpa [Node.update, Node.resolve] using h
  | cons c cs ih =>
    intro n p x h
    cases hc : n.child c with
    | none =>
      refine ⟨x, by simpa [Node.update, hc] using h, fun _ hx => hx, rfl, fun e => ?_⟩
      subst e
      simp [Node.resolve, hc] at h
    | some ch =>
      simp only [Node.update, hc]
      cases p with
      | nil =>
        simp only [Node.resolve, Option.some.injEq] at h
        subst h
        exact ⟨_, rfl, by simp, by simp, fun e => by cases e⟩
      | cons c' cs' =>
        by_cases hcc : c' = c
        · subst hcc
          simp only [Node.resolve, hc] at h
          obtain ⟨x', h1, h2, h3, h4⟩ := ih ch cs' x h
          refine ⟨x', ?_, h2, h3, fun e => h4 (by injection e)⟩
          simp only [Node.resolve]
          rw [Node.child_setChild_same n c' _ (by simp [hc])]
          exact h1
        · refine ⟨x, ?_, fun _ hx => hx, rfl, fun e => ?_⟩
          · simp only [Node.resolve]
            rw [Node.child_setChild_ne n c c' _ (by simp [hc]) hcc]
            exact h
          · injection e with e1 _
            exact absurd e1 hcc

theorem deref_modify_same (heap : List Node) (p : Ref) (f : Node → Node) (x : Node)
    (h : deref heap p = some x) : deref (modify heap p f) p = some (f x) := by
  unfold deref at h ⊢
  unfold modify
  cases hr : heap[p.root]? with
  | none => simp [hr] at h
  | some r =>
    simp only [hr] at h ⊢
    have hlt : p.root < heap.length := (List.getElem?_eq_some_iff.mp hr).1
    simp only [List.getElem?_set_self hlt]
    exact Node.resolve_update_same f p.path r x h

theorem deref_modify_pfx (heap : List Node) (p q : Ref) (f : Node → Node) (x : Node)
    (hroot : p.root = q.root) (r : List CursorElement) (hpath : q.path = p.path ++ r)
    (h : deref heap p = some x) : deref (modify heap q f) p = some (x.update f r) := by
  unfold deref at h ⊢
  unfold modify
  rw [← hroot]
  cases hr : heap[p.root]? with
  | none => simp [hr] at h
  | some rt =>
    simp only [hr] at h ⊢
    have hlt : p.root < heap.length := (List.getElem?_eq_some_iff.mp hr).1
    simp only [List.getElem?_set_self hlt, hpath]
    exact Node.resolve_update_pfx f r p.path rt x h

theorem deref_modify_other (heap : List Node) (p q : Ref) (f : Node → Node)
    (hroot : p.root ≠ q.root) : deref (modify heap q f) p = deref heap p := by
  unfold deref modify
  cases hr : heap[q.root]? with
  | none => rfl
  | some rt =>
    rw [List.getElem?_set_ne (Ne.symm hroot)]

theorem modify_length (heap : List Node) (q : Ref) (f : Node → Node) :
    (modify heap q f).length = heap.length := by
  unfold modify
  cases heap[q.root]? <;> simp

theorem deref_lt (heap : List Node) (p : Ref) (h : (deref heap p).isSome) :
    p.root < heap.length := by
  unfold deref at h
  cases hr : heap[p.root]? with
  | none => simp [hr] at h
  | some rt => exact (List.getElem?_eq_some_iff.mp hr).1

theorem deref_modify_addDep (id : String) (heap : List Node) (p q : Ref) (x : Node)
    (h : deref heap p = some x) :
    ∃ x', deref (modify heap q (fun y => y.AddDependency id)) p = some x' ∧
      x.deps ⊆ x'.deps ∧ x'.reg = x.reg ∧ (p = q → id ∈ x'.deps) := by
  by_cases hroot : p.root = q.root
  · unfold deref at h ⊢
    unfold modify
    rw [← hroot]
    cases hr : heap[p.root]? with
    | none => simp [hr] at h
    | some rt =>
      simp only [hr] at h ⊢
      have hlt : p.root < heap.length := (List.getElem?_eq_some_iff.mp hr).1
      simp only [List.getElem?_set_self hlt]
      obtain ⟨x', h1, h2, h3, h4⟩ := Node.resolve_update_addDep id q.path rt p.path x h
      exact ⟨x', h1, h2, h3, fun e => h4 (by rw [e])⟩
  · refine ⟨x, ?_, fun _ hx => hx, rfl, fun e => absurd (by rw [e]) hroot⟩
    rw [deref_modify_other heap p q _ hroot]
    exact h

/-! ## Invariants of `traverse` -/

theorem deref_modify_above (heap : List Node) (p q : Ref) (f : Node → Node)
    (hp : (deref heap p).isSome) (h : p.root ≠ q.root ∨ p.path <+: q.path) :
    (deref (modify heap q f) p).isSome := by
  by_cases hroot : p.root = q.root
  · rcases h with h | ⟨r, hr⟩
    · exact absurd hroot h
    · obtain ⟨x, hx⟩ := Option.isSome_iff_exists.mp hp
      rw [deref_modify_pfx heap p q f x hroot r hr.symm hx]
      rfl
  · rw [deref_modify_other heap p q f hroot]
    exact hp

theorem deref_append (heap : List Node) (nn : Node) (p : Ref) (hp : (deref heap p).isSome) :
    deref (heap ++ [nn]) p = deref heap p := by
  have hlt := deref_lt heap p hp
  unfold deref
  rw [List.getElem?_append_left hlt]

theorem deref_append_new (heap : List Node) (nn : Node) :
    deref (heap ++ [nn]) { root := heap.length, path := [] } = some nn := by
  simp [deref, Node.resolve]

theorem traverseStep_valid (s : Trav) (c : CursorElement) (h : s.valid) :
    (traverseStep s c).valid := by
  obtain ⟨h1, h2, h3⟩ := h
  have hpush : ∀ p ∈ s.travNodes, p.root ≠ (s.nPtr.push c).root ∨
      p.path <+: (s.nPtr.push c).path := by
    intro p hp
    rcases h3 p hp with h | h
    · exact Or.inl h
    · exact Or.inr (h.trans (List.prefix_append _ _))
  unfold traverseStep
  cases he : deref s.heap (s.nPtr.push c) with
  | some ch =>
    refine ⟨by simp [he], ?_, ?_⟩
    · intro p hp
      rcases List.mem_append.mp hp with hp | hp
      · exact h2 p hp
      · rw [List.mem_singleton.mp hp]; simp [he]
    · intro p hp
      rcases List.mem_append.mp hp with hp | hp
      · exact hpush p hp
      · rw [List.mem_singleton.mp hp]; exact Or.inr (List.prefix_refl _)
  | none =>
    simp only []
    have hold : ∀ p ∈ s.travNodes,
        (deref (modify s.heap s.nPtr
          (fun cur => (cur.link c.Type (newNode c.Get)).1)) p).isSome :=
      fun p hp => deref_modify_above _ _ _ _ (h2 p hp) (h3 p hp)
    cases he' : deref (modify s.heap s.nPtr
        (fun cur => (cur.link c.Type (newNode c.Get)).1)) (s.nPtr.push c) with
    | some ch =>
      refine ⟨by simp [he'], ?_, ?_⟩
      · intro p hp
        rcases List.mem_append.mp hp with hp | hp
        · exact hold p hp
        · rw [List.mem_singleton.mp hp]; simp [he']
      · intro p hp
        rcases List.mem_append.mp hp with hp | hp
        · exact hpush p hp
        · rw [List.mem_singleton.mp hp]; exact Or.inr (List.prefix_refl _)
    | none =>
      refine ⟨by simp [deref_append_new], ?_, ?_⟩
      · intro p hp
        rcases List.mem_append.mp hp with hp | hp
        · simp only []
          rw [deref_append _ _ _ (hold p hp)]
          exact hold p hp
        · rw [List.mem_singleton.mp hp]; simp [deref_append_new]
      · intro p hp
        rcases List.mem_append.mp hp with hp | hp
        · exact Or.inl (Nat.ne_of_lt (deref_lt _ _ (hold p hp)))
        · rw [List.mem_singleton.mp hp]; exact Or.inr (List.prefix_refl _)

theorem traverseFrom_valid (path : List CursorElement) :
    ∀ s : Trav, s.valid → (traverseFrom s path).valid := by
  induction path with
  | nil => intro s h; exact h
  | cons c cs ih =>
    intro s h
    exact ih _ (traverseStep_valid s c h)

theorem traverse_valid (d : Doc) (cursor : Cursor) : (traverse d cursor).valid := by
  apply traverseFrom_valid
  refine ⟨by simp [deref, Node.resolve], ?_, ?_⟩ <;> intro p hp <;> cases hp

theorem traverseStep_length (s : Trav) (c : CursorElement) :
    (traverseStep s c).travNodes.length = s.travNodes.length + 1 := by
  unfold traverseStep
  cases deref s.heap (s.nPtr.push c) with
  | some ch => simp
  | none =>
    simp only []
    cases deref (modify s.heap s.nPtr
        (fun cur => (cur.link c.Type (newNode c.Get)).1)) (s.nPtr.push c) <;> simp

theorem traverseFrom_length (path : List CursorElement) :
    ∀ s : Trav, (traverseFrom s path).travNodes.length = s.travNodes.length + path.length := by
  induction path with
  | nil => intro s; rfl
  | cons c cs ih =>
    intro s
    have := ih (traverseStep s c)
    rw [traverseStep_length] at this
    simp only [traverseFrom, List.foldl_cons, List.length_cons] at this ⊢
    omega

/-! ## The dependency loop -/

theorem addDependencies_fold (id : String) (l : List Ref) :
    ∀ (heap : List Node) (p : Ref) (x : Node), deref heap p = some x →
      ∃ x', deref (l.foldl (fun h n => modify h n (fun y => y.AddDependency id)) heap) p
          = some x' ∧
        x.deps ⊆ x'.deps ∧ x'.reg = x.reg ∧ (p ∈ l → id ∈ x'.deps) := by
  induction l with
  | nil => intro heap p x h; exact ⟨x, h, fun _ hx => hx, rfl, fun hp => by cases hp⟩
  | cons q t ih =>
    intro heap p x h
    obtain ⟨x₁, h1, h2, h3, h4⟩ := deref_modify_addDep id heap p q x h
    obtain ⟨x₂, g1, g2, g3, g4⟩ := ih _ p x₁ h1
    refine ⟨x₂, g1, fun a ha => g2 (h2 ha), g3.trans h3, fun hp => ?_⟩
    rcases List.mem_cons.mp hp with hp | hp
    · exact g2 (h4 hp)
    · exact g4 hp

theorem addDependencies_deref (t : Trav) (id : String) (p : Ref) (x : Node)
    (h : deref t.heap p = some x) :
    ∃ x', deref (addDependencies t id) p = some x' ∧ x.deps ⊆ x'.deps ∧ x'.reg = x.reg ∧
      (p ∈ t.travNodes → id ∈ x'.deps) := by
  obtain ⟨x', h1, h2, h3, h4⟩ :=
    addDependencies_fold id (([] ++ t.travNodes) ++ t.createdNodes) t.heap p x h
  exact ⟨x', h1, h2, h3, fun hp => h4 (by simp [hp])⟩

theorem Node.deps_update (f : Node → Node) (hf : ∀ y, (f y).deps = y.deps) (x : Node)
    (r : List CursorElement) : (x.update f r).deps = x.deps := by
  cases r with
  | nil => exact hf x
  | cons c cs =>
    simp only [Node.update]
    cases x.child c <;> simp

theorem deref_head (heap : List Node) (p : Ref) (n dflt : Node) (h : deref heap p = some n)
    (hroot : p.root = 0) : (heap.headD dflt).resolve p.path = some n := by
  unfold deref at h
  rw [hroot] at h
  cases heap with
  | nil => simp at h
  | cons r t => simpa using h

theorem ApplyOperation_head (d : Doc) (o : Operation) :
    (ApplyOperation d o).1.Head = (applyOperationHeap d o).heap.headD d.Head := by
  rcases h : (applyOperationHeap d o).err with _ | e <;> simp [ApplyOperation, h]

/-- C7: after `ApplyOperation` every node reached by an element of the cursor (`traverse`
returns one pointer per element, for the nodes passed through and for the nodes created
alike) has the ID of the operation in its deps; this holds whether or not `Mutate`
succeeds. For a pointer under the head the node is the one found in the document by
following the path. -/
theorem applyOperation_records_deps (d : Doc) (o : Operation) :
    (traverse d o.Cursor).travNodes.length = o.Cursor.Path.length ∧
    ∀ p ∈ (traverse d o.Cursor).travNodes,
      ∃ n, deref (applyOperationHeap d o).heap p = some n ∧ o.ID ∈ n.deps ∧
        (p.root = 0 → (ApplyOperation d o).1.Head.resolve p.path = some n) := by
  refine ⟨by simp [traverse, traverseFrom_length], ?_⟩
  intro p hp
  obtain ⟨_, hv2, hv3⟩ := traverse_valid d o.Cursor
  obtain ⟨x, hx⟩ := Option.isSome_iff_exists.mp (hv2 p hp)
  obtain ⟨x', h1, _, _, h4⟩ := addDependencies_deref _ o.ID p x hx
  have key : ∃ n, deref (applyOperationHeap d o).heap p = some n ∧ o.ID ∈ n.deps := by
    simp only [applyOperationHeap]
    by_cases hroot : p.root = (traverse d o.Cursor).nPtr.root
    · rcases hv3 p hp with h | ⟨r, hr⟩
      · exact absurd hroot h
      · rw [deref_modify_pfx _ p _ _ x' hroot r hr.symm h1]
        refine ⟨_, rfl, ?_⟩
        rw [Node.deps_update _ (fun y => Node.deps_Mutate y o)]
        exact h4 hp
    · rw [deref_modify_other _ p _ _ hroot]
      exact ⟨x', h1, h4 hp⟩
  obtain ⟨n, hn1, hn2⟩ := key
  refine ⟨n, hn1, hn2, fun hroot => ?_⟩
  rw [ApplyOperation_head]
  exact deref_head _ p n _ hn1 hroot

/-! ## Clearing the descendants -/

theorem length_le_sizeHmap : ∀ h : List (String × Node), h.length ≤ sizeHmap h
  | [] => by simp [sizeHmap]
  | (_, n) :: t => by
    have := length_le_sizeHmap t
    cases n
    simp only [sizeHmap, Node.size, List.length_cons]
    omega

theorem length_le_sizeList : ∀ l : List Node, l.length ≤ sizeList l
  | [] => by simp [sizeList]
  | n :: t => by
    have := length_le_sizeList t
    cases n
    simp only [sizeList, Node.size, List.length_cons]
    omega

theorem directChildren_length_lt (n : Node) : (directChildren n).length < n.size := by
  cases n with
  | mk k d h l r =>
    have h1 := length_le_sizeHmap h
    have h2 := length_le_sizeList l
    simp only [directChildren, hValues, Node.hmap, Node.list, List.length_append,
      List.length_map, Node.size]
    omega

theorem allChildrenLoop_acc (fuel : Nat) :
    ∀ (tmp acc : List Node), acc ⊆ allChildrenLoop fuel tmp acc := by
  induction fuel with
  | zero => intro tmp acc; simp [allChildrenLoop]
  | succ f ih =>
    intro tmp acc
    cases tmp with
    | nil => simp [allChildrenLoop]
    | cons c t =>
      simp only [allChildrenLoop]
      exact fun x hx => ih _ _ (List.mem_append_left _ hx)

theorem allChildrenLoop_mem (fuel : Nat) :
    ∀ (pre post acc : List Node), pre.length ≤ fuel →
      ∀ c ∈ pre, c ∈ allChildrenLoop fuel (pre ++ post) acc := by
  induction fuel with
  | zero =>
    intro pre post acc hlen c hc
    cases pre with
    | nil => cases hc
    | cons x t => simp at hlen
  | succ f ih =>
    intro pre post acc hlen c hc
    cases pre with
    | nil => cases hc
    | cons x t =>
      have hstep : allChildrenLoop (f + 1) (x :: t ++ post) acc
          = allChildrenLoop f (t ++ (post ++ directChildren x)) (acc ++ [x]) := by
        simp [allChildrenLoop]
      rw [hstep]
      rcases List.mem_cons.mp hc with hc | hc
      · subst hc
        exact allChildrenLoop_acc f _ _ (by simp)
      · exact ih t _ _ (by simpa using hlen) c hc

theorem directChildren_subset_allChildren (n : Node) :
    directChildren n ⊆ n.allChildren := by
  intro c hc
  have := allChildrenLoop_mem n.size (directChildren n) [] []
    (Nat.le_of_lt (directChildren_length_lt n)) c hc
  simpa [Node.allChildren] using this

theorem Mutate_delete (n : Node) (o : Operation) (ht : o.Mutation.Typ = .Delete) :
    n.Mutate o = (n.setChildren (clearNodes n.allChildren o.Deps), none) := by
  simp [Node.Mutate, ht]

theorem Mutate_assign_nil (n : Node) (o : Operation) (ht : o.Mutation.Typ = .Assign)
    (hk : o.Mutation.Key = .nil) :
    n.Mutate o =
      ((n.setChildren (clearNodes n.allChildren o.Deps)).setReg
        (hPut n.reg o.ID o.Mutation.Value), none) := by
  simp [Node.Mutate, ht, hk]

theorem applyOperationHeap_target (d : Doc) (o : Operation) :
    ∃ x y, deref (traverse d o.Cursor).heap (traverse d o.Cursor).nPtr = some x ∧
      deref (addDependencies (traverse d o.Cursor) o.ID) (traverse d o.Cursor).nPtr = some y ∧
      y.reg = x.reg ∧
      deref (applyOperationHeap d o).heap (applyOperationHeap d o).nPtr = some (y.Mutate o).1 ∧
      (applyOperationHeap d o).err = (y.Mutate o).2 := by
  obtain ⟨hv1, _, _⟩ := traverse_valid d o.Cursor
  obtain ⟨x, hx⟩ := Option.isSome_iff_exists.mp hv1
  obtain ⟨y, h1, _, h3, _⟩ := addDependencies_deref _ o.ID _ x hx
  refine ⟨x, y, hx, h1, h3, ?_, ?_⟩
  · simp only [applyOperationHeap]
    exact deref_modify_same _ _ _ y h1
  · simp only [applyOperationHeap, h1]

theorem ApplyOperation_err (d : Doc) (o : Operation) :
    (ApplyOperation d o).2 = (applyOperationHeap d o).err := by
  rcases h : (applyOperationHeap d o).err with _ | e <;> simp [ApplyOperation, h]


/-! ## Where the target of `traverse` lives -/

theorem traverseStep_root (s : Trav) (c : CursorElement) (h : s.nPtr.root < s.heap.length) :
    (traverseStep s c).nPtr.root < (traverseStep s c).heap.length ∧
    s.heap.length ≤ (traverseStep s c).heap.length ∧
    (((traverseStep s c).nPtr.root = s.nPtr.root ∧
        (traverseStep s c).nPtr.path = s.nPtr.path ++ [c]) ∨
      s.heap.length ≤ (traverseStep s c).nPtr.root) := by
  unfold traverseStep
  cases deref s.heap (s.nPtr.push c) with
  | some ch => exact ⟨h, Nat.le_refl _, Or.inl ⟨rfl, rfl⟩⟩
  | none =>
    simp only []
    cases deref (modify s.heap s.nPtr
        (fun cur => (cur.link c.Type (newNode c.Get)).1)) (s.nPtr.push c) with
    | some ch =>
      refine ⟨?_, ?_, Or.inl ⟨rfl, rfl⟩⟩
      · simpa [modify_length, Ref.push] using h
      · simp [modify_length]
    | none =>
      refine ⟨by simp, by simp [modify_length], Or.inr ?_⟩
      simp [modify_length]

theorem traverseFrom_root (path : List CursorElement) :
    ∀ s : Trav, s.nPtr.root < s.heap.length →
      (traverseFrom s path).nPtr.root < (traverseFrom s path).heap.length ∧
      s.heap.length ≤ (traverseFrom s path).heap.length ∧
      (((traverseFrom s path).nPtr.root = s.nPtr.root ∧
          (traverseFrom s path).nPtr.path = s.nPtr.path ++ path) ∨
        s.heap.length ≤ (traverseFrom s path).nPtr.root) := by
  induction path with
  | nil => intro s h; exact ⟨h, Nat.le_refl _, Or.inl ⟨rfl, by simp [traverseFrom]⟩⟩
  | cons c cs ih =>
    intro s h
    obtain ⟨a1, a2, a3⟩ := traverseStep_root s c h
    obtain ⟨b1, b2, b3⟩ := ih (traverseStep s c) a1
    have e : traverseFrom s (c :: cs) = traverseFrom (traverseStep s c) cs := rfl
    rw [e]
    refine ⟨b1, Nat.le_trans a2 b2, ?_⟩
    rcases a3 with ⟨a3, a4⟩ | a3 <;> rcases b3 with ⟨b3, b4⟩ | b3
    · exact Or.inl ⟨b3.trans a3, by rw [b4, a4]; simp⟩
    · exact Or.inr (Nat.le_trans a2 b3)
    · exact Or.inr (by rw [b3]; exact a3)
    · exact Or.inr (Nat.le_trans a2 b3)

theorem traverse_attached (d : Doc) (cursor : Cursor)
    (h : (traverse d cursor).nPtr.root = 0) :
    (traverse d cursor).nPtr = { root := 0, path := cursor.Path } := by
  have := (traverseFrom_root cursor.Path
    { heap := [d.Head], nPtr := { root := 0, path := [] }, travNodes := [],
      createdNodes := [] } (by simp)).2.2
  rcases this with ⟨_, h2⟩ | h2
  · have e : (traverse d cursor).nPtr.path = cursor.Path := by simpa [traverse] using h2
    cases hn : (traverse d cursor).nPtr with
    | mk r pth =>
      rw [hn] at h e
      simp only at h e
      rw [h, e]
  · have h' : 1 ≤ (traverse d cursor).nPtr.root := by simpa [traverse] using h2
    omega

theorem applyOperationHeap_nPtr (d : Doc) (o : Operation) :
    (applyOperationHeap d o).nPtr = (traverse d o.Cursor).nPtr := rfl

/-- C9, counterexample. In `docABC` the node `"a"` has the map children `"b"` and `"c"`.
After the Delete `delA` targeted at the cursor `["a"]` the node `"a"` still has the entries
`"b"` and `"c"`, and the lookup of `["a", "b"]` from the root still finds a node: the
clearing is handed the collected descendants, not the node `"a"`, and nothing removes an
entry from the containers of the target. -/
theorem delete_clears_counterexample :
    (ApplyOperation docABC delA).2 = none ∧
    ((ApplyOperation docABC delA).1.Head.resolve [.MapKey "a"]).map (fun n => hKeys n.hmap)
      = some ["b", "c"] ∧
    ((ApplyOperation docABC delA).1.Head.resolve [.MapKey "a", .MapKey "b"]).isSome = true ∧
    ((ApplyOperation docABC delA).1.Head.resolve [.MapKey "a", .MapKey "c"]).isSome = true := by
  decide

/-- C9 (amended): a Delete never fails, and the node `y` the cursor reaches (the node
`Mutate` is called on) keeps every entry of its containers: afterwards it has the same map
keys in the same order, the same number of list children, the same register, deps and key.
When that node is attached to the tree it is the node found in the document under the
cursor. -/
theorem delete_keeps_entries (d : Doc) (o : Operation) (ht : o.Mutation.Typ = .Delete) :
    (ApplyOperation d o).2 = none ∧
    ∃ y n,
      deref (addDependencies (traverse d o.Cursor) o.ID) (traverse d o.Cursor).nPtr = some y ∧
      deref (applyOperationHeap d o).heap (applyOperationHeap d o).nPtr = some n ∧
      hKeys n.hmap = hKeys y.hmap ∧ n.list.length = y.list.length ∧
      n.reg = y.reg ∧ n.deps = y.deps ∧ n.key = y.key ∧
      ((applyOperationHeap d o).nPtr.root = 0 →
        (ApplyOperation d o).1.Head.resolve o.Cursor.Path = some n) := by
  obtain ⟨x, y, _, h2, _, h4, h5⟩ := applyOperationHeap_target d o
  rw [Mutate_delete y o ht] at h4 h5
  refine ⟨by rw [ApplyOperation_err, h5], y, _, h2, h4, Node.hKeys_setChildren _ _,
    Node.length_setChildren _ _, Node.reg_setChildren _ _, Node.deps_setChildren _ _,
    Node.key_setChildren _ _, fun hroot => ?_⟩
  have hp := traverse_attached d o.Cursor hroot
  rw [ApplyOperation_head]
  have := deref_head _ _ _ d.Head h4 hroot
  rw [applyOperationHeap_nPtr, hp] at this
  exact this

theorem delete_keeps_entries_witness :
    (ApplyOperation docABC delA).2 = none ∧
    ∃ n, (ApplyOperation docABC delA).1.Head.resolve [.MapKey "a"] = some n ∧
      hKeys n.hmap = ["b", "c"] ∧ n.list.length = 0 ∧ n.reg = [] ∧ n.deps = ["D"] ∧
      n.key = .str "a" := by
  obtain ⟨h1, y, n, hy, _, h3, h4, h5, h6, h7, h8⟩ := delete_keeps_entries docABC delA rfl
  have hy' : deref (addDependencies (traverse docABC delA.Cursor) delA.ID)
      (traverse docABC delA.Cursor).nPtr
      = some (.mk (.str "a") ["D"] [("b", newNode (.str "b")), ("c", newNode (.str "c"))]
          [] []) := by decide
  rw [hy'] at hy
  have e := Option.some.inj hy
  subst e
  exact ⟨h1, n, h8 (by decide), h3, h4, h5, h6, h7⟩

/-- C10, counterexample: after the Insert of `{"a": {"b": 1}}` at the root and the Assign of
`5` at cursor `["a"]`, the register of node `"a"` holds two entries: the inserted value
under the ID of the Insert and `5` under the ID of the Assign. The entry of the Assign is not
the only one. And in `docABC`, where the node `"a"` has the map children `"b"` and `"c"`,
the same Assign leaves the entries `"b"` and `"c"` under `"a"`. -/
theorem assign_replaces_counterexample :
    ((ApplyOperation (ApplyOperation (Init "r") insAB).1 asgA).1.Head.resolve
        [.MapKey "a"]).map Node.reg
      = some [("A", .json "\x7b\"b\":1\x7d"), ("B", .int 5)] ∧
    ((ApplyOperation (ApplyOperation (Init "r") insAB).1 asgA).1.Head.resolve
        [.MapKey "a"]).map Node.reg
      ≠ some [("B", .int 5)] ∧
    ((ApplyOperation docABC asgA).1.Head.resolve [.MapKey "a"]).map (fun n => hKeys n.hmap)
      = some ["b", "c"] := by
  decide

/-- C10 (amended): an Assign with an absent key never fails; afterwards the register of the
node the cursor reaches holds the value under the ID of the operation, and is not emptied:
every entry it held under another ID is still there. The node keeps every entry of its
containers: it has the same map keys in the same order and the same number of list children
as the node `y` that `Mutate` was called on, and the same deps. When the node is attached
to the tree it is the node found in the document under the cursor. -/
theorem assign_keeps_entries_and_writes (d : Doc) (o : Operation)
    (ht : o.Mutation.Typ = .Assign) (hk : o.Mutation.Key = .nil) :
    (ApplyOperation d o).2 = none ∧
    ∃ x y n, deref (traverse d o.Cursor).heap (traverse d o.Cursor).nPtr = some x ∧
      deref (addDependencies (traverse d o.Cursor) o.ID) (traverse d o.Cursor).nPtr = some y ∧
      deref (applyOperationHeap d o).heap (applyOperationHeap d o).nPtr = some n ∧
      hGet n.reg o.ID = some o.Mutation.Value ∧
      (∀ id, id ≠ o.ID → hGet n.reg id = hGet x.reg id) ∧
      hKeys n.hmap = hKeys y.hmap ∧ n.list.length = y.list.length ∧ n.deps = y.deps ∧
      ((applyOperationHeap d o).nPtr.root = 0 →
        (ApplyOperation d o).1.Head.resolve o.Cursor.Path = some n) := by
  obtain ⟨x, y, h1, h2, h3, h4, h5⟩ := applyOperationHeap_target d o
  rw [Mutate_assign_nil y o ht hk] at h4 h5
  refine ⟨by rw [ApplyOperation_err, h5], x, y, _, h1, h2, h4, ?_, ?_, ?_, ?_, ?_,
    fun hroot => ?_⟩
  · simp [hGet_hPut_same]
  · intro id hid
    simp [hGet_hPut_ne _ _ _ _ hid, h3]
  · simp [Node.hKeys_setChildren]
  · simp [Node.length_setChildren]
  · simp
  · have hp := traverse_attached d o.Cursor hroot
    rw [ApplyOperation_head]
    have := deref_head _ _ _ d.Head h4 hroot
    rw [applyOperationHeap_nPtr, hp] at this
    exact this

theorem assign_keeps_entries_and_writes_witness :
    (ApplyOperation docABC asgA).2 = none ∧
    ∃ n, (ApplyOperation docABC asgA).1.Head.resolve [.MapKey "a"] = some n ∧
      hGet n.reg "B" = some (.int 5) ∧ hKeys n.hmap = ["b", "c"] ∧ n.list.length = 0 ∧
      n.deps = ["B"] := by
  obtain ⟨h1, x, y, n, _, hy, _, h4, _, h6, h7, h8, h9⟩ :=
    assign_keeps_entries_and_writes docABC asgA rfl rfl
  have hy' : deref (addDependencies (traverse docABC asgA.Cursor) asgA.ID)
      (traverse docABC asgA.Cursor).nPtr
      = some (.mk (.str "a") ["B"] [("b", newNode (.str "b")), ("c", newNode (.str "c"))]
          [] []) := by decide
  rw [hy'] at hy
  have e := Option.some.inj hy
  subst e
  exact ⟨h1, n, h9 (by decide), h4, h6, h7, h8⟩

/-! ## Targets that no container holds -/

/-- C6, the code at the failing input: for the cursor `[ListKey 1]` on a fresh document
`traverse` creates a node, the list of the head does not take it (index `1` is past its
end), and the node is returned as target although no container holds it: the tree is
unchanged and the lookup of the cursor from the root fails. An operation applied there
succeeds and is recorded, and leaves the tree as it was. For the cursor
`[MapKey "a", ListKey 0]` both nodes are created and attached. -/
theorem traverse_out_of_range_detached :
    (traverse (Init "r") { Path := [.ListKey 1] }).nPtr = { root := 1, path := [] } ∧
    (traverse (Init "r") { Path := [.ListKey 1] }).heap = [newNode .nil, newNode (.int 1)] ∧
    (newNode .nil).resolve [.ListKey 1] = none ∧
    (ApplyOperation (Init "r") lostW1).2 = none ∧
    (ApplyOperation (Init "r") lostW1).1.OperationsId = ["A"] ∧
    (ApplyOperation (Init "r") lostW1).1.Head = (Init "r").Head ∧
    (traverse (Init "r") { Path := [.MapKey "a", .ListKey 0] }).nPtr
      = { root := 0, path := [.MapKey "a", .ListKey 0] } ∧
    (((traverse (Init "r") { Path := [.MapKey "a", .ListKey 0] }).heap.headD
        (newNode .nil)).resolve [.MapKey "a", .ListKey 0]).map Node.key = some (.int 0) := by
  decide

/-! ## The register keeps every write -/

/-- C8, counterexample. First: after the register write `regW1` and the Delete `regDel`
(absent key, another ID) at the root, the register of the root has the entry of `regW1`
and none under the ID of `regDel`. Second: `lostW1` and `lostW2` write at the cursor
`[ListKey 1]`, which a fresh document cannot hold; the target node of the second write has
the entry of `lostW2` only, and the document has no node under the cursor. -/
theorem register_counterexample :
    (hGet (ApplyOperation (ApplyOperation (Init "r") regW1).1 regDel).1.Head.reg "A"
        = some (.int 1) ∧
      hGet (ApplyOperation (ApplyOperation (Init "r") regW1).1 regDel).1.Head.reg "B"
        = none) ∧
    ((deref (applyOperationHeap (ApplyOperation (Init "r") lostW1).1 lostW2).heap
          (applyOperationHeap (ApplyOperation (Init "r") lostW1).1 lostW2).nPtr).map Node.reg
        = some [("B", .int 2)] ∧
      (ApplyOperation (ApplyOperation (Init "r") lostW1).1 lostW2).1.Head.resolve
          [.ListKey 1] = none) := by
  decide

theorem deref_prefix_isSome (heap : List Node) (r : Nat) (p q : List CursorElement)
    (h : (deref heap { root := r, path := p ++ q }).isSome) :
    (deref heap { root := r, path := p }).isSome := by
  unfold deref at h ⊢
  cases hr : heap[r]? with
  | none => simp [hr] at h
  | some rt =>
    simp only [hr, Node.resolve_append] at h ⊢
    cases hp : rt.resolve p with
    | none => simp [hp] at h
    | some x => rfl

theorem traverseFrom_existing (path : List CursorElement) :
    ∀ s : Trav,
      (deref s.heap { root := s.nPtr.root, path := s.nPtr.path ++ path }).isSome →
      (traverseFrom s path).heap = s.heap ∧
      (traverseFrom s path).nPtr = { root := s.nPtr.root, path := s.nPtr.path ++ path } := by
  induction path with
  | nil => intro s _; exact ⟨rfl, by simp [traverseFrom]⟩
  | cons c cs ih =>
    intro s h
    have hc : (deref s.heap (s.nPtr.push c)).isSome := by
      apply deref_prefix_isSome s.heap s.nPtr.root (s.nPtr.path ++ [c]) cs
      simpa using h
    obtain ⟨ch, hch⟩ := Option.isSome_iff_exists.mp hc
    have hstep : traverseStep s c
        = { s with nPtr := s.nPtr.push c, travNodes := s.travNodes ++ [s.nPtr.push c] } := by
      simp [traverseStep, hch]
    have e : traverseFrom s (c :: cs) = traverseFrom (traverseStep s c) cs := rfl
    rw [e, hstep]
    have := ih { s with nPtr := s.nPtr.push c, travNodes := s.travNodes ++ [s.nPtr.push c] }
      (by simpa [Ref.push] using h)
    simpa [Ref.push] using this

theorem traverse_existing (d : Doc) (cursor : Cursor) (h : (d.Head.resolve cursor.Path).isSome) :
    (traverse d cursor).heap = [d.Head] ∧
    (traverse d cursor).nPtr = { root := 0, path := cursor.Path } := by
  have := traverseFrom_existing cursor.Path
    { heap := [d.Head], nPtr := { root := 0, path := [] }, travNodes := [],
      createdNodes := [] } (by simpa [deref] using h)
  simpa [traverse] using this

theorem Mutate_write_nil (n : Node) (o : Operation) (ht : o.Mutation.Typ ≠ .Delete)
    (hk : o.Mutation.Key = .nil) :
    (n.Mutate o).2 = none ∧ (n.Mutate o).1.reg = hPut n.reg o.ID o.Mutation.Value := by
  rcases hty : o.Mutation.Typ with _ | _ | _
  · rw [Mutate_insert_nil n o hty hk]; simp
  · rw [Mutate_assign_nil n o hty hk]; simp
  · exact absurd hty ht

/-- C8 (amended): for every document, every cursor whose target `traverse` attaches to the
tree, and every two writes `o₁`, `o₂` (kind Insert or Assign) with distinct IDs, that cursor
and an absent key: after applying `o₁` and then `o₂` the node under the cursor holds the
value of `o₁` under the ID of `o₁` and the value of `o₂` under the ID of `o₂`; the second
write does not remove or change the first entry. -/
theorem register_keeps_both_writes (d : Doc) (c : Cursor) (o₁ o₂ : Operation)
    (hid : o₁.ID ≠ o₂.ID) (hc₁ : o₁.Cursor = c) (hc₂ : o₂.Cursor = c)
    (hk₁ : o₁.Mutation.Key = .nil) (hk₂ : o₂.Mutation.Key = .nil)
    (ht₁ : o₁.Mutation.Typ ≠ .Delete) (ht₂ : o₂.Mutation.Typ ≠ .Delete)
    (hatt : (traverse d c).nPtr.root = 0) :
    ∃ n, (ApplyOperation (ApplyOperation d o₁).1 o₂).1.Head.resolve c.Path = some n ∧
      hGet n.reg o₁.ID = some o₁.Mutation.Value ∧
      hGet n.reg o₂.ID = some o₂.Mutation.Value := by
  subst hc₁
  -- the first write
  obtain ⟨x₁, y₁, _, _, _, a4, _⟩ := applyOperationHeap_target d o₁
  have hp₁ := traverse_attached d o₁.Cursor hatt
  have hroot₁ : (applyOperationHeap d o₁).nPtr.root = 0 := hatt
  have hres₁ : (ApplyOperation d o₁).1.Head.resolve o₁.Cursor.Path = some (y₁.Mutate o₁).1 := by
    rw [ApplyOperation_head]
    have := deref_head _ _ _ d.Head a4 hroot₁
    rw [applyOperationHeap_nPtr, hp₁] at this
    exact this
  have hreg₁ := (Mutate_write_nil y₁ o₁ ht₁ hk₁).2
  -- the second write finds the node of the first
  have hex := traverse_existing (ApplyOperation d o₁).1 o₂.Cursor
    (by rw [hc₂, hres₁]; rfl)
  obtain ⟨x₂, y₂, b1, _, b3, b4, _⟩ := applyOperationHeap_target (ApplyOperation d o₁).1 o₂
  have hx₂ : x₂ = (y₁.Mutate o₁).1 := by
    rw [hex.1, hex.2, hc₂] at b1
    have : deref [(ApplyOperation d o₁).1.Head] { root := 0, path := o₁.Cursor.Path }
        = (ApplyOperation d o₁).1.Head.resolve o₁.Cursor.Path := by simp [deref]
    rw [this, hres₁] at b1
    exact (Option.some.inj b1).symm
  have hroot₂ : (applyOperationHeap (ApplyOperation d o₁).1 o₂).nPtr.root = 0 := by
    rw [applyOperationHeap_nPtr, hex.2]
  have hres₂ : (ApplyOperation (ApplyOperation d o₁).1 o₂).1.Head.resolve o₁.Cursor.Path
      = some (y₂.Mutate o₂).1 := by
    rw [ApplyOperation_head]
    have := deref_head _ _ _ (ApplyOperation d o₁).1.Head b4 hroot₂
    rw [applyOperationHeap_nPtr, hex.2, hc₂] at this
    exact this
  have hreg₂ := (Mutate_write_nil y₂ o₂ ht₂ hk₂).2
  refine ⟨_, hres₂, ?_, ?_⟩
  · rw [hreg₂, hGet_hPut_ne _ _ _ _ hid, b3, hx₂, hreg₁, hGet_hPut_same]
  · rw [hreg₂, hGet_hPut_same]

theorem register_keeps_both_writes_witness :
    ∃ n, (ApplyOperation (ApplyOperation (Init "r") regW1).1 regW2).1.Head.resolve [] = some n ∧
      hGet n.reg "A" = some (.int 1) ∧ hGet n.reg "B" = some (.int 2) :=
  register_keeps_both_writes (Init "r") { Path := [] } regW1 regW2 (by decide) rfl rfl rfl rfl
    (by decide) (by decide) (by decide)


/-! ## Unsupported keys -/

theorem Mutate_other_err (n : Node) (o : Operation) (tag : String)
    (ht : o.Mutation.Typ ≠ .Delete) (hk : o.Mutation.Key = .other tag) :
    (n.Mutate o).2 = some "Key type is not valid" := by
  rcases hty : o.Mutation.Typ with _ | _ | _
  · simp [Node.Mutate, hty, hk]
  · simp [Node.Mutate, hty, hk]
  · exact absurd hty ht

/-- C11, counterexample. The Delete `badDel` has a key that is neither absent, a string nor
an int; `ApplyOperation` and `ApplyRemoteOperation` return no error on the fresh document
and record the ID. -/
theorem invalid_key_delete_counterexample :
    (ApplyOperation (Init "r") badDel).2 = none ∧
    (ApplyOperation (Init "r") badDel).1.OperationsId = ["A"] ∧
    (ApplyRemoteOperation (Init "r") badDel).2 = none ∧
    (ApplyRemoteOperation (Init "r") badDel).1.OperationsId = ["A"] := by
  decide

/-- C11 (amended): for every document and every operation of kind Insert or Assign whose
mutation key is neither absent, a string nor an int, `ApplyOperation` returns the error
"Key type is not valid", and so does `ApplyRemoteOperation` when the operation is not yet
applied and its Deps are all applied. -/
theorem invalid_key_errors (d : Doc) (o : Operation) (tag : String)
    (ht : o.Mutation.Typ ≠ .Delete) (hk : o.Mutation.Key = .other tag) :
    (ApplyOperation d o).2 = some "Key type is not valid" ∧
    (o.ID ∉ d.OperationsId → (∀ x ∈ o.Deps, x ∈ d.OperationsId) →
      (ApplyRemoteOperation d o).2 = some "Key type is not valid") := by
  have h : (ApplyOperation d o).2 = some "Key type is not valid" := by
    obtain ⟨x, y, _, _, _, _, herr⟩ := applyOperationHeap_target d o
    rw [ApplyOperation_err, herr]
    exact Mutate_other_err y o tag ht hk
  refine ⟨h, fun hid hdep => ?_⟩
  rw [ApplyRemoteOperation_ready d o hid hdep]
  exact h

theorem invalid_key_errors_witness :
    (ApplyOperation (Init "r") badIns).2 = some "Key type is not valid" ∧
    (badIns.ID ∉ (Init "r").OperationsId → (∀ x ∈ badIns.Deps, x ∈ (Init "r").OperationsId) →
      (ApplyRemoteOperation (Init "r") badIns).2 = some "Key type is not valid") :=
  invalid_key_errors (Init "r") badIns "float64" (by decide) rfl

/-! ## Insert under a string key -/

/-- C17: for every node `n` and every Insert with the string key `k` and value `v`, `Mutate`
returns no error; afterwards the children by name of `n` map `k` to a new node with key
`k`, no deps, no children and the register `[(op.ID, v)]` (whatever was stored under `k`
before), map every other key to what they mapped it to before, and the children by index,
the register, the deps and the key of `n` are as before. -/
theorem map_insert_frame (n : Node) (o : Operation) (k : String)
    (ht : o.Mutation.Typ = .Insert) (hk : o.Mutation.Key = .str k) :
    (n.Mutate o).2 = none ∧
    hGet (n.Mutate o).1.hmap k = some (.mk (.str k) [] [] [] [(o.ID, o.Mutation.Value)]) ∧
    (∀ k', k' ≠ k → hGet (n.Mutate o).1.hmap k' = hGet n.hmap k') ∧
    (n.Mutate o).1.list = n.list ∧ (n.Mutate o).1.reg = n.reg ∧
    (n.Mutate o).1.deps = n.deps ∧ (n.Mutate o).1.key = n.key := by
  rw [Mutate_insert_str n o k ht hk]
  refine ⟨rfl, ?_, ?_, ?_, ?_, ?_, ?_⟩
  · simp [hGet_hPut_same]
  · intro k' hne
    simp [hGet_hPut_ne _ _ _ _ hne]
  all_goals simp

theorem map_insert_frame_witness :
    ((newNode .nil).Mutate insX).2 = none ∧
    hGet ((newNode .nil).Mutate insX).1.hmap "x"
      = some (.mk (.str "x") [] [] [] [(insX.ID, insX.Mutation.Value)]) ∧
    (∀ k', k' ≠ "x" → hGet ((newNode .nil).Mutate insX).1.hmap k' = hGet (newNode .nil).hmap k') ∧
    ((newNode .nil).Mutate insX).1.list = (newNode .nil).list ∧
    ((newNode .nil).Mutate insX).1.reg = (newNode .nil).reg ∧
    ((newNode .nil).Mutate insX).1.deps = (newNode .nil).deps ∧
    ((newNode .nil).Mutate insX).1.key = (newNode .nil).key :=
  map_insert_frame (newNode .nil) insX "x" rfl rfl

/-! ## Insert under an int key -/

theorem Mutate_insert_int (n : Node) (o : Operation) (i : Int)
    (ht : o.Mutation.Typ = .Insert) (hk : o.Mutation.Key = .int i) :
    n.Mutate o =
      (n.setList (aInsert n.list i (.mk (.int i) [] [] [] [(o.ID, o.Mutation.Value)])), none) := by
  simp [Node.Mutate, ht, hk, newNode, hPut, Node.setReg]

theorem aInsert_length {α : Type} (l : List α) (i : Int) (v : α) (h0 : 0 ≤ i)
    (hL : i ≤ l.length) : (aInsert l i v).length = l.length + 1 := by
  unfold aInsert
  split
  · rename_i h
    have : i.toNat ≤ l.length := by omega
    simp [List.length_take, List.length_drop]
    omega
  · rename_i h
    have : i = l.length := by omega
    simp [this]

theorem aInsert_get_at {α : Type} (l : List α) (i : Int) (v : α) (h0 : 0 ≤ i)
    (hL : i ≤ l.length) : aGet (aInsert l i v) i = some v := by
  have hlen := aInsert_length l i v h0 hL
  unfold aGet
  rw [if_pos (by omega)]
  unfold aInsert
  split
  · rename_i h
    have h1 : i.toNat ≤ l.length := by omega
    rw [List.get?_eq_getElem?, List.getElem?_append_right (by simp [List.length_take])]
    simp [List.length_take, h1]
  · have : i = l.length := by omega
    subst this
    simp

theorem aInsert_get_before {α : Type} (l : List α) (i j : Int) (v : α) (h0 : 0 ≤ i)
    (hL : i ≤ l.length) (hj : j < i) : aGet (aInsert l i v) j = aGet l j := by
  have hlen := aInsert_length l i v h0 hL
  unfold aGet
  by_cases hj0 : 0 ≤ j
  · rw [if_pos (by omega), if_pos (by omega)]
    unfold aInsert
    have hjn : j.toNat < i.toNat := by omega
    split
    · rw [List.get?_eq_getElem?, List.get?_eq_getElem?,
        List.getElem?_append_left (by simp [List.length_take]; omega)]
      simp [List.getElem?_take, hjn]
    · have : i = l.length := by omega
      rw [if_pos this, List.get?_eq_getElem?, List.get?_eq_getElem?,
        List.getElem?_append_left (by omega)]
  · rw [if_neg (by omega), if_neg (by omega)]

theorem aInsert_get_after {α : Type} (l : List α) (i j : Int) (v : α) (h0 : 0 ≤ i)
    (hL : i ≤ l.length) (hj : i ≤ j) : aGet (aInsert l i v) (j + 1) = aGet l j := by
  have hlen := aInsert_length l i v h0 hL
  unfold aGet
  by_cases hjl : j < l.length
  · rw [if_pos (by omega), if_pos (by omega)]
    unfold aInsert
    rw [if_pos (by omega), List.get?_eq_getElem?, List.get?_eq_getElem?,
      List.getElem?_append_right (by simp [List.length_take]; omega)]
    have h1 : i.toNat ≤ l.length := by omega
    have h2 : (j + 1).toNat - (List.take i.toNat l).length = (j.toNat - i.toNat) + 1 := by
      simp [List.length_take, h1]; omega
    rw [h2, List.getElem?_cons_succ, List.getElem?_drop]
    congr 1
    omega
  · rw [if_neg (by omega), if_neg (by omega)]

/-- C14: for every node `n` with `L` children by index, every index `i` with `0 ≤ i ≤ L`
and every Insert with the int key `i` and value `v`: `Mutate` returns no error, the list has
`L + 1` elements afterwards, position `i` holds a new node with key `i`, no deps, no
children and the register `[(op.ID, v)]`, every position `j < i` holds what it held
before, and every position `j + 1` with `j ≥ i` holds what position `j` held before. -/
theorem list_insert_shifts (n : Node) (o : Operation) (i : Int)
    (ht : o.Mutation.Typ = .Insert) (hk : o.Mutation.Key = .int i)
    (h0 : 0 ≤ i) (hL : i ≤ n.list.length) :
    (n.Mutate o).2 = none ∧
    (n.Mutate o).1.list.length = n.list.length + 1 ∧
    aGet (n.Mutate o).1.list i = some (.mk (.int i) [] [] [] [(o.ID, o.Mutation.Value)]) ∧
    (∀ j, j < i → aGet (n.Mutate o).1.list j = aGet n.list j) ∧
    (∀ j, i ≤ j → aGet (n.Mutate o).1.list (j + 1) = aGet n.list j) := by
  rw [Mutate_insert_int n o i ht hk]
  simp only [Node.list_setList]
  exact ⟨trivial, aInsert_length _ _ _ h0 hL, aInsert_get_at _ _ _ h0 hL,
    fun j hj => aInsert_get_before _ _ _ _ h0 hL hj,
    fun j hj => aInsert_get_after _ _ _ _ h0 hL hj⟩

theorem list_insert_shifts_witness :
    ((Node.mk .nil [] [] [newNode (.int 0), newNode (.int 1)] []).Mutate insL0).2 = none ∧
    ((Node.mk .nil [] [] [newNode (.int 0), newNode (.int 1)] []).Mutate insL0).1.list.length
      = (Node.mk .nil [] [] [newNode (.int 0), newNode (.int 1)] []).list.length + 1 ∧
    aGet ((Node.mk .nil [] [] [newNode (.int 0), newNode (.int 1)] []).Mutate insL0).1.list 0
      = some (.mk (.int 0) [] [] [] [(insL0.ID, insL0.Mutation.Value)]) ∧
    (∀ j, j < 0 →
      aGet ((Node.mk .nil [] [] [newNode (.int 0), newNode (.int 1)] []).Mutate insL0).1.list j
        = aGet (Node.mk .nil [] [] [newNode (.int 0), newNode (.int 1)] []).list j) ∧
    (∀ j, 0 ≤ j →
      aGet ((Node.mk .nil [] [] [newNode (.int 0), newNode (.int 1)] []).Mutate insL0).1.list
          (j + 1)
        = aGet (Node.mk .nil [] [] [newNode (.int 0), newNode (.int 1)] []).list j) :=
  list_insert_shifts (Node.mk .nil [] [] [newNode (.int 0), newNode (.int 1)] []) insL0 0
    rfl rfl (by decide) (by decide)

/-! ## An int key out of range -/

theorem aInsert_out_of_range {α : Type} (l : List α) (i : Int) (v : α)
    (hi : i < 0 ∨ (l.length : Int) < i) : aInsert l i v = l := by
  unfold aInsert
  rw [if_neg (by omega), if_neg (by omega)]

theorem Node.setList_list (n : Node) : n.setList n.list = n := by
  cases n; rfl

/-- C19: for every node `n` with `L` children by index and every Insert with an int key `i`
where `i < 0` or `i > L`, `Mutate` returns no error and leaves `n` as it is; and for every
document in which `n` is the node `ApplyOperation` calls `Mutate` on (the node the cursor
reaches, after the dependency loop), `ApplyOperation` returns no error, appends the ID to
`OperationsId` and leaves that node as it is: the value is stored nowhere. -/
theorem insert_out_of_range_dropped (n : Node) (o : Operation) (i : Int)
    (ht : o.Mutation.Typ = .Insert) (hk : o.Mutation.Key = .int i)
    (hi : i < 0 ∨ (n.list.length : Int) < i) :
    n.Mutate o = (n, none) ∧
    ∀ d : Doc,
      deref (addDependencies (traverse d o.Cursor) o.ID) (traverse d o.Cursor).nPtr = some n →
      (ApplyOperation d o).2 = none ∧
      (ApplyOperation d o).1.OperationsId = d.OperationsId ++ [o.ID] ∧
      (ApplyOperation d o).1.OperationsBuffer = d.OperationsBuffer ∧
      deref (applyOperationHeap d o).heap (applyOperationHeap d o).nPtr = some n := by
  have hm : n.Mutate o = (n, none) := by
    rw [Mutate_insert_int n o i ht hk, aInsert_out_of_range _ _ _ hi, Node.setList_list]
  refine ⟨hm, fun d hd => ?_⟩
  obtain ⟨x, y, _, hy, _, hfin, herr⟩ := applyOperationHeap_target d o
  rw [hd] at hy
  have hyn : y = n := (Option.some.inj hy).symm
  subst hyn
  rw [hm] at hfin herr
  have he : (ApplyOperation d o).2 = none := by rw [ApplyOperation_err, herr]
  refine ⟨he, ?_, ApplyOperation_buffer d o, hfin⟩
  rw [ApplyOperation_ids, if_pos he]

theorem insert_out_of_range_dropped_witness :
    (newNode .nil).Mutate insL5 = (newNode .nil, none) ∧
    ∀ d : Doc,
      deref (addDependencies (traverse d insL5.Cursor) insL5.ID) (traverse d insL5.Cursor).nPtr
          = some (newNode .nil) →
      (ApplyOperation d insL5).2 = none ∧
      (ApplyOperation d insL5).1.OperationsId = d.OperationsId ++ [insL5.ID] ∧
      (ApplyOperation d insL5).1.OperationsBuffer = d.OperationsBuffer ∧
      deref (applyOperationHeap d insL5).heap (applyOperationHeap d insL5).nPtr
        = some (newNode .nil) :=
  insert_out_of_range_dropped (newNode .nil) insL5 5 rfl rfl (by decide)

/-! ## The applied IDs -/

theorem ApplyOperation_ids_prefix (d : Doc) (o : Operation) :
    d.OperationsId <+: (ApplyOperation d o).1.OperationsId := by
  rw [ApplyOperation_ids]
  split
  · exact List.prefix_append _ _
  · exact List.prefix_refl _

theorem ApplyRemoteOperation_ids_prefix (d : Doc) (o : Operation) :
    d.OperationsId <+: (ApplyRemoteOperation d o).1.OperationsId := by
  unfold ApplyRemoteOperation
  split
  · exact List.prefix_refl _
  · dsimp only
    split
    · exact List.prefix_refl _
    · exact ApplyOperation_ids_prefix d o

theorem runCalls_ids_prefix (cs : List Call) :
    ∀ d : Doc, d.OperationsId <+: (runCalls d cs).OperationsId := by
  induction cs with
  | nil => intro d; exact List.prefix_refl _
  | cons c cs ih =>
    intro d
    have e : runCalls d (c :: cs) = runCalls (Call.run d c) cs := rfl
    rw [e]
    refine List.IsPrefix.trans ?_ (ih _)
    cases c with
    | remote o => exact ApplyRemoteOperation_ids_prefix d o
    | direct o => exact ApplyOperation_ids_prefix d o

theorem ApplyOperation_nodup (d : Doc) (o : Operation) (h : d.OperationsId.Nodup)
    (hid : o.ID ∉ d.OperationsId) : (ApplyOperation d o).1.OperationsId.Nodup := by
  rw [ApplyOperation_ids]
  split
  · rw [List.nodup_append]
    refine ⟨h, List.nodup_singleton _, ?_⟩
    intro a ha hb
    rw [List.mem_singleton] at hb
    subst hb
    exact hid ha
  · exact h

theorem ApplyRemoteOperation_nodup (d : Doc) (o : Operation) (h : d.OperationsId.Nodup) :
    (ApplyRemoteOperation d o).1.OperationsId.Nodup := by
  unfold ApplyRemoteOperation
  split
  · exact h
  · rename_i hc
    dsimp only
    split
    · exact h
    · apply ApplyOperation_nodup d o h
      intro hmem
      exact hc ((containsId_iff _ _).mpr hmem)

theorem runCalls_nodup (cs : List Call) :
    ∀ d : Doc, d.OperationsId.Nodup → freshCalls d cs = true →
      (runCalls d cs).OperationsId.Nodup := by
  induction cs with
  | nil => intro d h _; exact h
  | cons c cs ih =>
    intro d h hf
    have e : runCalls d (c :: cs) = runCalls (Call.run d c) cs := rfl
    rw [e]
    cases c with
    | remote o =>
      exact ih _ (ApplyRemoteOperation_nodup d o h) (by simpa [freshCalls] using hf)
    | direct o =>
      simp only [freshCalls, Bool.and_eq_true, Bool.not_eq_true'] at hf
      refine ih _ (ApplyOperation_nodup d o h ?_) hf.2
      intro hmem
      have := (containsId_iff _ _).mpr hmem
      rw [hf.1] at this
      exact Bool.false_ne_true this

/-- C13, counterexample. Two direct calls of `ApplyOperation` with the register write
`regW1` on a fresh document leave the ID `"A"` twice in `OperationsId`. -/
theorem applied_ids_duplicate_counterexample :
    (runCalls (Init "r") [.direct regW1, .direct regW1]).OperationsId = ["A", "A"] ∧
    ¬ (runCalls (Init "r") [.direct regW1, .direct regW1]).OperationsId.Nodup := by
  decide

/-- C13 (amended): in every document reached from `Init id` by a finite sequence of calls
of `ApplyRemoteOperation` (arbitrary operations) and of `ApplyOperation` (each with an
operation whose ID is not yet in `OperationsId` at the time of the call), `OperationsId`
has no duplicate; and for every document and every sequence of calls of either kind, with
arbitrary operations, `OperationsId` before is a prefix of `OperationsId` after: every ID
present before a call is present after it. -/
theorem applied_ids_nodup_monotone (id : String) (cs : List Call)
    (h : freshCalls (Init id) cs = true) :
    (runCalls (Init id) cs).OperationsId.Nodup ∧
    ∀ (d : Doc) (cs' : List Call), d.OperationsId <+: (runCalls d cs').OperationsId :=
  ⟨runCalls_nodup cs (Init id) List.nodup_nil h, fun d cs' => runCalls_ids_prefix cs' d⟩

theorem applied_ids_nodup_monotone_witness :
    (runCalls (Init "r") [.remote chainA, .direct insY, .remote chainA, .remote chainC]).OperationsId.Nodup ∧
    ∀ (d : Doc) (cs' : List Call), d.OperationsId <+: (runCalls d cs').OperationsId :=
  applied_ids_nodup_monotone "r" [.remote chainA, .direct insY, .remote chainA, .remote chainC]
    (by decide)

/-! ## The package `types`: lookup in a `Map` -/

theorem foldl_append_singleton {α β : Type} (f : α → β) (l : List α) :
    ∀ init : List β, l.foldl (fun acc x => acc ++ [f x]) init = init ++ l.map f := by
  induction l with
  | nil => intro init; simp
  | cons a t ih => intro init; simp [ih]

theorem Types.Map.Keys_eq (m : Types.Map) : m.Keys = m.KV.map Types.KV.Key := by
  simp [Types.Map.Keys, foldl_append_singleton]

/-- C16: for every `Map` and every key that no entry has, `Get` returns the nil value and
leaves the map as it is: the key is not among `Keys` afterwards, no entry is created. For a
key that is present, `Get` returns the value of the first entry with that key. -/
theorem map_get_absent_not_added (m : Types.Map) (key : String) (h : key ∉ m.Keys) :
    (m.Get key).2 = none ∧ (m.Get key).1 = m ∧ key ∉ (m.Get key).1.Keys ∧
    ∀ (m' : Types.Map) (pre post : List Types.KV) (kv : Types.KV),
      m'.KV = pre ++ kv :: post → kv.Key = key → (∀ e ∈ pre, e.Key ≠ key) →
      (m'.Get key).2 = kv.Value ∧ (m'.Get key).1 = m' := by
  have hnone : m.KV.find? (fun kv => kv.Key == key) = none := by
    rw [List.find?_eq_none]
    intro kv hkv hk
    apply h
    rw [Types.Map.Keys_eq]
    exact List.mem_map.mpr ⟨kv, hkv, by simpa using hk⟩
  have hg : m.Get key = (m, none) := by simp [Types.Map.Get, hnone]
  refine ⟨by rw [hg], by rw [hg], by rw [hg]; exact h, ?_⟩
  intro m' pre post kv hkv hk hpre
  have hf : m'.KV.find? (fun e => e.Key == key) = some kv := by
    rw [hkv, List.find?_append]
    have : pre.find? (fun e => e.Key == key) = none := by
      rw [List.find?_eq_none]
      intro e he
      simpa using hpre e he
    simp [this, hk]
  simp [Types.Map.Get, hf]

theorem map_get_absent_not_added_witness :
    (Types.NewMap.Get "k").2 = none ∧ (Types.NewMap.Get "k").1 = Types.NewMap ∧
    "k" ∉ (Types.NewMap.Get "k").1.Keys ∧
    ∀ (m' : Types.Map) (pre post : List Types.KV) (kv : Types.KV),
      m'.KV = pre ++ kv :: post → kv.Key = "k" → (∀ e ∈ pre, e.Key ≠ "k") →
      (m'.Get "k").2 = kv.Value ∧ (m'.Get "k").1 = m' :=
  map_get_absent_not_added Types.NewMap "k" (by decide)

/-! ## Traversal of an existing path -/

theorem inits_tail_cons {α : Type} (c : α) (cs : List α) :
    (c :: cs).inits.tail = [c] :: cs.inits.tail.map (fun t => c :: t) := by
  cases cs with
  | nil => rfl
  | cons a t => simp [List.inits_cons]

theorem traverseFrom_existing_lists (path : List CursorElement) :
    ∀ s : Trav,
      (deref s.heap { root := s.nPtr.root, path := s.nPtr.path ++ path }).isSome →
      (traverseFrom s path).createdNodes = s.createdNodes ∧
      (traverseFrom s path).travNodes = s.travNodes ++
        path.inits.tail.map (fun q => { root := s.nPtr.root, path := s.nPtr.path ++ q }) := by
  induction path with
  | nil => intro s _; simp [traverseFrom]
  | cons c cs ih =>
    intro s h
    have hc : (deref s.heap (s.nPtr.push c)).isSome := by
      apply deref_prefix_isSome s.heap s.nPtr.root (s.nPtr.path ++ [c]) cs
      simpa using h
    obtain ⟨ch, hch⟩ := Option.isSome_iff_exists.mp hc
    have hstep : traverseStep s c
        = { s with nPtr := s.nPtr.push c, travNodes := s.travNodes ++ [s.nPtr.push c] } := by
      simp [traverseStep, hch]
    have e : traverseFrom s (c :: cs) = traverseFrom (traverseStep s c) cs := rfl
    rw [e, hstep]
    have := ih { s with nPtr := s.nPtr.push c, travNodes := s.travNodes ++ [s.nPtr.push c] }
      (by simpa [Ref.push] using h)
    rw [this.1, this.2, inits_tail_cons]
    simp [Ref.push, Function.comp_def]

/-- C15: for every document and every cursor whose path resolves in the tree (every element
names an existing child), `traverse` creates no node, leaves the tree as it is, returns the
pointer to the node at the path, and returns as traversed the pointers to the nodes at the
non-empty prefixes of the path, shortest first: the existing nodes along the path in
order. -/
theorem traverse_existing_no_overwrite (d : Doc) (cursor : Cursor)
    (h : (d.Head.resolve cursor.Path).isSome) :
    (traverse d cursor).createdNodes = [] ∧
    (traverse d cursor).heap = [d.Head] ∧
    (traverse d cursor).nPtr = { root := 0, path := cursor.Path } ∧
    deref (traverse d cursor).heap (traverse d cursor).nPtr = d.Head.resolve cursor.Path ∧
    (traverse d cursor).travNodes
      = cursor.Path.inits.tail.map (fun q => { root := 0, path := q }) ∧
    (traverse d cursor).travNodes.map (deref (traverse d cursor).heap)
      = cursor.Path.inits.tail.map (fun q => d.Head.resolve q) := by
  have h1 := traverse_existing d cursor h
  have h2 := traverseFrom_existing_lists cursor.Path
    { heap := [d.Head], nPtr := { root := 0, path := [] }, travNodes := [],
      createdNodes := [] } (by simpa [deref] using h)
  have hc : (traverse d cursor).createdNodes = [] := h2.1
  have ht : (traverse d cursor).travNodes
      = cursor.Path.inits.tail.map (fun q => { root := 0, path := q }) := by
    have := h2.2
    simpa [traverse] using this
  refine ⟨hc, h1.1, h1.2, ?_, ht, ?_⟩
  · rw [h1.1, h1.2]; simp [deref]
  · rw [ht, h1.1]; simp [deref, Function.comp_def]

theorem traverse_existing_no_overwrite_witness :
    (traverse docABC insABd.Cursor).createdNodes = [] ∧
    (traverse docABC insABd.Cursor).heap = [docABC.Head] ∧
    (traverse docABC insABd.Cursor).nPtr = { root := 0, path := insABd.Cursor.Path } ∧
    deref (traverse docABC insABd.Cursor).heap (traverse docABC insABd.Cursor).nPtr
      = docABC.Head.resolve insABd.Cursor.Path ∧
    (traverse docABC insABd.Cursor).travNodes
      = insABd.Cursor.Path.inits.tail.map (fun q => { root := 0, path := q }) ∧
    (traverse docABC insABd.Cursor).travNodes.map (deref (traverse docABC insABd.Cursor).heap)
      = insABd.Cursor.Path.inits.tail.map (fun q => docABC.Head.resolve q) :=
  traverse_existing_no_overwrite docABC insABd.Cursor (by decide)

/-! ## `allChildren`: breadth-first order -/

theorem sizeList_append (a b : List Node) : sizeList (a ++ b) = sizeList a + sizeList b := by
  induction a with
  | nil => simp [sizeList]
  | cons x t ih => simp [sizeList, ih]; omega

theorem sizeList_hValues (h : List (String × Node)) : sizeList (hValues h) = sizeHmap h := by
  induction h with
  | nil => simp [hValues, sizeList, sizeHmap]
  | cons x t ih =>
    obtain ⟨k, v⟩ := x
    simp only [hValues, List.map_cons, sizeList, sizeHmap] at ih ⊢
    rw [ih]

theorem sizeList_directChildren (n : Node) : sizeList (directChildren n) + 1 = n.size := by
  cases n with
  | mk k d h l r =>
    simp only [directChildren, Node.hmap, Node.list, sizeList_append, sizeList_hValues,
      Node.size]
    omega

theorem sizeList_flatMap (q : List Node) :
    sizeList (q.flatMap directChildren) + q.length = sizeList q := by
  induction q with
  | nil => simp [sizeList]
  | cons x t ih =>
    have := sizeList_directChildren x
    simp only [List.flatMap_cons, sizeList_append, sizeList, List.length_cons]
    omega

theorem size_le_sizeList (q : List Node) : ∀ c ∈ q, c.size ≤ sizeList q := by
  induction q with
  | nil => intro c hc; cases hc
  | cons x t ih =>
    intro c hc
    simp only [sizeList]
    rcases List.mem_cons.mp hc with rfl | hc
    · omega
    · have := ih c hc; omega

theorem allChildrenLoop_nil (fuel : Nat) (acc : List Node) :
    allChildrenLoop fuel [] acc = acc := by
  cases fuel <;> rfl

theorem allChildrenLoop_level (q : List Node) :
    ∀ (r acc : List Node) (fuel : Nat), q.length ≤ fuel →
      allChildrenLoop fuel (q ++ r) acc
        = allChildrenLoop (fuel - q.length) (r ++ q.flatMap directChildren) (acc ++ q) := by
  induction q with
  | nil => intro r acc fuel _; simp
  | cons c t ih =>
    intro r acc fuel hf
    obtain ⟨f, rfl⟩ : ∃ f, fuel = f + 1 := ⟨fuel - 1, by simp at hf; omega⟩
    have hstep : allChildrenLoop (f + 1) (c :: t ++ r) acc
        = allChildrenLoop f (t ++ (r ++ directChildren c)) (acc ++ [c]) := by
      simp [allChildrenLoop]
    rw [hstep, ih (r ++ directChildren c) (acc ++ [c]) f (by simp at hf; omega)]
    simp

theorem bfsLevels_nil (k : Nat) : bfsLevels k [] = [] := by
  induction k with
  | zero => rfl
  | succ k ih => simp [bfsLevels, ih]

theorem sizeList_eq_zero (q : List Node) (h : sizeList q = 0) : q = [] := by
  cases q with
  | nil => rfl
  | cons x t =>
    have := length_le_sizeList (x :: t)
    simp at this
    omega

theorem allChildrenLoop_eq_bfsLevels (k : Nat) :
    ∀ (q acc : List Node) (fuel : Nat), sizeList q ≤ fuel → sizeList q ≤ k →
      allChildrenLoop fuel q acc = acc ++ bfsLevels k q := by
  induction k with
  | zero =>
    intro q acc fuel _ hk
    have := sizeList_eq_zero q (by omega)
    subst this
    simp [allChildrenLoop_nil, bfsLevels]
  | succ k ih =>
    intro q acc fuel hf hk
    by_cases hq : q = []
    · subst hq
      simp [allChildrenLoop_nil, bfsLevels_nil]
    · have hlen := length_le_sizeList q
      have hpos : 0 < q.length := List.length_pos.mpr hq
      have hfm := sizeList_flatMap q
      have h1 := allChildrenLoop_level q [] acc fuel (by omega)
      simp only [List.append_nil, List.nil_append] at h1
      rw [h1, ih _ _ _ (by omega) (by omega)]
      simp [bfsLevels]

theorem bfsLevels_length (k : Nat) :
    ∀ q : List Node, sizeList q ≤ k → (bfsLevels k q).length = sizeList q := by
  induction k with
  | zero =>
    intro q hk
    have := sizeList_eq_zero q (by omega)
    subst this
    simp [bfsLevels, sizeList]
  | succ k ih =>
    intro q hk
    by_cases hq : q = []
    · subst hq
      simp [bfsLevels_nil, sizeList]
    · have hlen := length_le_sizeList q
      have hpos : 0 < q.length := List.length_pos.mpr hq
      have hfm := sizeList_flatMap q
      simp only [bfsLevels, List.length_append]
      rw [ih _ (by omega)]
      omega

theorem bfsLevels_size (k : Nat) :
    ∀ (q : List Node) (c : Node), c ∈ bfsLevels k q → ∃ a ∈ q, c.size ≤ a.size := by
  induction k with
  | zero => intro q c hc; simp [bfsLevels] at hc
  | succ k ih =>
    intro q c hc
    simp only [bfsLevels, List.mem_append] at hc
    rcases hc with hc | hc
    · exact ⟨c, hc, le_refl _⟩
    · obtain ⟨a, ha, hca⟩ := ih _ c hc
      obtain ⟨b, hb, hab⟩ := List.mem_flatMap.mp ha
      refine ⟨b, hb, ?_⟩
      have h1 := size_le_sizeList _ a hab
      have h2 := sizeList_directChildren b
      omega

theorem child_mem_directChildren (n : Node) (c : CursorElement) (ch : Node)
    (h : n.child c = some ch) : ch ∈ directChildren n := by
  unfold directChildren
  cases c with
  | MapKey k =>
    apply List.mem_append_left
    simp only [Node.child] at h
    generalize n.hmap = m at h
    induction m with
    | nil => simp [hGet] at h
    | cons x t ih =>
      obtain ⟨k', v⟩ := x
      simp only [hGet] at h
      split at h
      · simp only [Option.some.injEq] at h
        subst h
        simp [hValues]
      · have := ih h
        simp only [hValues, List.map_cons, List.mem_cons] at this ⊢
        exact Or.inr this
  | ListKey i =>
    apply List.mem_append_right
    simp only [Node.child, aGet] at h
    split at h
    · rw [List.get?_eq_getElem?] at h
      obtain ⟨hlt, he⟩ := List.getElem?_eq_some_iff.mp h
      rw [← he]
      exact List.getElem_mem hlt
    · cases h

theorem resolve_mem_bfsLevels (cs : List CursorElement) :
    ∀ (q : List Node) (ch c : Node), ch ∈ q → ch.resolve cs = some c →
      c ∈ bfsLevels (cs.length + 1) q := by
  induction cs with
  | nil =>
    intro q ch c hq hr
    simp only [Node.resolve, Option.some.injEq] at hr
    subst hr
    simp [bfsLevels, hq]
  | cons c' cs ih =>
    intro q ch c hq hr
    simp only [Node.resolve] at hr
    cases hch : ch.child c' with
    | none => simp [hch] at hr
    | some ch2 =>
      simp only [hch] at hr
      have hmem : ch2 ∈ q.flatMap directChildren :=
        List.mem_flatMap.mpr ⟨ch, hq, child_mem_directChildren ch c' ch2 hch⟩
      have := ih _ ch2 c hmem hr
      have e : (c' :: cs).length + 1 = (cs.length + 1) + 1 := by simp
      rw [e]
      have hb : bfsLevels (cs.length + 1 + 1) q
          = q ++ bfsLevels (cs.length + 1) (q.flatMap directChildren) := rfl
      rw [hb]
      exact List.mem_append_right _ this

theorem bfsLevels_stable (q : List Node) (k k' : Nat) (hk : sizeList q ≤ k)
    (hk' : sizeList q ≤ k') : bfsLevels k q = bfsLevels k' q := by
  have h1 := allChildrenLoop_eq_bfsLevels k q [] (sizeList q) (le_refl _) hk
  have h2 := allChildrenLoop_eq_bfsLevels k' q [] (sizeList q) (le_refl _) hk'
  simp only [List.nil_append] at h1 h2
  rw [← h1, ← h2]

theorem bfsLevels_mono (k : Nat) :
    ∀ (q : List Node) (m : Nat), bfsLevels k q ⊆ bfsLevels (k + m) q := by
  induction k with
  | zero => intro q m c hc; simp [bfsLevels] at hc
  | succ k ih =>
    intro q m c hc
    have e : k + 1 + m = (k + m) + 1 := by omega
    rw [e]
    simp only [bfsLevels, List.mem_append] at hc ⊢
    rcases hc with hc | hc
    · exact Or.inl hc
    · exact Or.inr (ih _ m hc)

/-- C18: for every node `n` (a finite tree: children are owned by value), the loop of
`allChildren` ends: it runs one round per collected node, collects `n.size - 1` nodes, and
any larger bound on the rounds gives the same list. The list is the breadth-first
enumeration `bfsLevels` that starts at the direct children of `n`: all nodes of one depth
before any node of the next depth, each child of a listed node exactly once. It has
exactly one entry per proper descendant (`n.size - 1` entries), holds every node reached
from `n` by a non-empty path through map and list children, never holds `n` itself (every
entry is smaller than `n`), and is empty for a node without children. -/
theorem allChildren_breadth_first (n : Node) :
    (∀ fuel, n.size ≤ fuel → allChildrenLoop fuel (directChildren n) [] = n.allChildren) ∧
    n.allChildren = bfsLevels n.size (directChildren n) ∧
    n.allChildren.length + 1 = n.size ∧
    (∀ (p : List CursorElement) (c : Node), p ≠ [] → n.resolve p = some c →
      c ∈ n.allChildren) ∧
    (∀ c ∈ n.allChildren, c.size < n.size) ∧
    n ∉ n.allChildren ∧
    (directChildren n = [] → n.allChildren = []) := by
  have hs := sizeList_directChildren n
  have heq : ∀ fuel, n.size ≤ fuel →
      allChildrenLoop fuel (directChildren n) [] = bfsLevels n.size (directChildren n) := by
    intro fuel hf
    have := allChildrenLoop_eq_bfsLevels n.size (directChildren n) [] fuel (by omega) (by omega)
    simpa using this
  have hall : n.allChildren = bfsLevels n.size (directChildren n) := heq n.size (le_refl _)
  have hlt : ∀ c ∈ n.allChildren, c.size < n.size := by
    intro c hc
    rw [hall] at hc
    obtain ⟨a, ha, hca⟩ := bfsLevels_size _ _ c hc
    have := size_le_sizeList _ a ha
    omega
  refine ⟨fun fuel hf => by rw [heq fuel hf, hall], hall, ?_, ?_, hlt, ?_, ?_⟩
  · rw [hall, bfsLevels_length _ _ (by omega)]
    exact hs
  · intro p c hp hr
    cases p with
    | nil => exact absurd rfl hp
    | cons c' cs =>
      simp only [Node.resolve] at hr
      cases hch : n.child c' with
      | none => simp [hch] at hr
      | some ch =>
        simp only [hch] at hr
        have h1 := resolve_mem_bfsLevels cs (directChildren n) ch c
          (child_mem_directChildren n c' ch hch) hr
        have h2 := bfsLevels_mono (cs.length + 1) (directChildren n) n.size h1
        rw [hall, bfsLevels_stable (directChildren n) n.size (cs.length + 1 + n.size)
          (by omega) (by omega)]
        exact h2
  · intro hn
    have := hlt n hn
    omega
  · intro he
    rw [hall, he, bfsLevels_nil]

/-! ## What an update leaves in place -/

theorem Node.resolve_update_frame (f : Node → Node) (q : List CursorElement) :
    ∀ (n : Node) (p : List CursorElement) (x : Node), n.resolve p = some x →
      (∀ y, n.resolve q = some y → ∀ c ch, y.child c = some ch → (f y).child c = some ch) →
      ∃ x', (n.update f q).resolve p = some x' ∧
        ((p = q ∧ x' = f x) ∨
          (p ≠ q ∧ (x' = x ∨ ∃ c ch, (x.child c).isSome ∧ x' = x.setChild c ch))) := by
  induction q with
  | nil =>
    intro n p x h hf
    cases p with
    | nil =>
      simp only [Node.resolve, Option.some.injEq] at h
      subst h
      exact ⟨_, rfl, Or.inl ⟨rfl, rfl⟩⟩
    | cons c cs =>
      refine ⟨x, ?_, Or.inr ⟨by simp, Or.inl rfl⟩⟩
      simp only [Node.resolve] at h
      cases hc : n.child c with
      | none => simp [hc] at h
      | some ch =>
        simp only [hc] at h
        simp only [Node.update, Node.resolve, hf n rfl c ch hc]
        exact h
  | cons c cs ih =>
    intro n p x h hf
    cases hc : n.child c with
    | none =>
      refine ⟨x, by simpa [Node.update, hc] using h, Or.inr ⟨fun e => ?_, Or.inl rfl⟩⟩
      subst e
      simp [Node.resolve, hc] at h
    | some ch =>
      simp only [Node.update, hc]
      cases p with
      | nil =>
        simp only [Node.resolve, Option.some.injEq] at h
        subst h
        exact ⟨_, rfl, Or.inr ⟨by simp, Or.inr ⟨c, _, by simp [hc], rfl⟩⟩⟩
      | cons c' cs' =>
        by_cases hcc : c' = c
        · subst hcc
          simp only [Node.resolve, hc] at h
          have hf' : ∀ y, ch.resolve cs = some y → ∀ c ch, y.child c = some ch →
              (f y).child c = some ch := by
            intro y hy
            apply hf y
            simp [Node.resolve, hc, hy]
          obtain ⟨x', h1, h2⟩ := ih ch cs' x h hf'
          refine ⟨x', ?_, ?_⟩
          · simp only [Node.resolve]
            rw [Node.child_setChild_same n c' _ (by simp [hc])]
            exact h1
          · rcases h2 with ⟨e, h2⟩ | ⟨e, h2⟩
            · exact Or.inl ⟨by rw [e], h2⟩
            · exact Or.inr ⟨fun e' => e (by injection e'), h2⟩
        · refine ⟨x, ?_, Or.inr ⟨fun e => ?_, Or.inl rfl⟩⟩
          · simp only [Node.resolve]
            rw [Node.child_setChild_ne n c c' _ (by simp [hc]) hcc]
            exact h
          · injection e with e1 _
            exact absurd e1 hcc

theorem deref_modify_frame (heap : List Node) (p q : Ref) (f : Node → Node) (x : Node)
    (h : deref heap p = some x)
    (hf : ∀ y, deref heap q = some y → ∀ c ch, y.child c = some ch → (f y).child c = some ch) :
    ∃ x', deref (modify heap q f) p = some x' ∧
      ((p = q ∧ x' = f x) ∨
        (p ≠ q ∧ (x' = x ∨ ∃ c ch, (x.child c).isSome ∧ x' = x.setChild c ch))) := by
  by_cases hroot : p.root = q.root
  · have hlt := deref_lt heap p (by simp [h])
    unfold deref at h hf
    unfold deref modify
    rw [← hroot] at hf ⊢
    cases hr : heap[p.root]? with
    | none => simp [hr] at h
    | some r =>
      simp only [hr] at h hf ⊢
      rw [List.getElem?_set_self hlt]
      obtain ⟨x', h1, h2⟩ := Node.resolve_update_frame f q.path r p.path x h hf
      refine ⟨x', h1, ?_⟩
      rcases h2 with ⟨e, h2⟩ | ⟨e, h2⟩
      · refine Or.inl ⟨?_, h2⟩
        cases p; cases q; simp_all
      · refine Or.inr ⟨fun e' => e (by rw [e']), h2⟩
  · refine ⟨x, ?_, Or.inr ⟨fun e => hroot (by rw [e]), Or.inl rfl⟩⟩
    rw [deref_modify_other _ _ _ _ hroot]
    exact h

theorem deref_modify_deps (heap : List Node) (p q : Ref) (f : Node → Node) (x : Node)
    (h : deref heap p = some x)
    (hf : ∀ y, deref heap q = some y → ∀ c ch, y.child c = some ch → (f y).child c = some ch)
    (hd : ∀ y, (f y).deps = y.deps) :
    ∃ x', deref (modify heap q f) p = some x' ∧ x'.deps = x.deps := by
  obtain ⟨x', h1, h2⟩ := deref_modify_frame heap p q f x h hf
  refine ⟨x', h1, ?_⟩
  rcases h2 with ⟨_, e⟩ | ⟨_, e | ⟨c, ch, _, e⟩⟩
  · rw [e, hd]
  · rw [e]
  · rw [e, Node.deps_setChild]

theorem deref_modify_addDep_exact (id : String) (heap : List Node) (p q : Ref) (x : Node)
    (h : deref heap p = some x) :
    ∃ x', deref (modify heap q (fun y => y.AddDependency id)) p = some x' ∧
      x'.deps = x.deps ++ List.replicate (if q = p then 1 else 0) id := by
  obtain ⟨x', h1, h2⟩ := deref_modify_frame heap p q (fun y => y.AddDependency id) x h
    (fun y _ c ch hc => by rw [Node.child_AddDependency]; exact hc)
  refine ⟨x', h1, ?_⟩
  rcases h2 with ⟨e1, e⟩ | ⟨e1, e | ⟨c, ch, _, e⟩⟩
  · rw [e, if_pos e1.symm]; simp
  · rw [e, if_neg (fun e' => e1 e'.symm)]; simp
  · rw [e, if_neg (fun e' => e1 e'.symm)]; simp

theorem addDependencies_fold_exact (id : String) (l : List Ref) :
    ∀ (heap : List Node) (p : Ref) (x : Node), deref heap p = some x →
      ∃ x', deref (l.foldl (fun h n => modify h n (fun y => y.AddDependency id)) heap) p
          = some x' ∧
        x'.deps = x.deps ++ List.replicate (l.count p) id := by
  induction l with
  | nil => intro heap p x h; exact ⟨x, h, by simp⟩
  | cons q t ih =>
    intro heap p x h
    obtain ⟨x₁, h1, h2⟩ := deref_modify_addDep_exact id heap p q x h
    obtain ⟨x', h3, h4⟩ := ih _ p x₁ h1
    refine ⟨x', h3, ?_⟩
    rw [h4, h2, List.append_assoc, ← List.replicate_add, List.count_cons]
    congr 2
    by_cases e : q = p
    · simp [e]; omega
    · simp [e]

theorem addDependencies_exact (t : Trav) (id : String) (p : Ref) (x : Node)
    (h : deref t.heap p = some x) :
    ∃ x', deref (addDependencies t id) p = some x' ∧
      x'.deps = x.deps ++ List.replicate (t.travNodes.count p + t.createdNodes.count p) id := by
  obtain ⟨x', h1, h2⟩ := addDependencies_fold_exact id (([] ++ t.travNodes) ++ t.createdNodes)
    t.heap p x h
  refine ⟨x', h1, ?_⟩
  rw [h2]
  simp [List.count_append]

/-! ## Linking a missing child -/

theorem deref_push (heap : List Node) (p : Ref) (c : CursorElement) :
    deref heap (p.push c) = (deref heap p).bind (fun x => x.child c) := by
  unfold deref Ref.push
  simp only
  cases heap[p.root]? with
  | none => rfl
  | some r =>
    simp only [Node.resolve_append]
    cases r.resolve p.path with
    | none => rfl
    | some x =>
      simp only [Option.some_bind, Node.resolve]
      cases x.child c <;> rfl

theorem aGet_aInsert_keep {α : Type} (l : List α) (i j : Int) (v w : α)
    (hi : aGet l i = none) (hj : aGet l j = some w) : aGet (aInsert l i v) j = some w := by
  have hj' := (aGet_isSome l j).mp (by simp [hj])
  have hi' : ¬ (0 ≤ i ∧ i < l.length) := by
    intro hh
    have := (aGet_isSome l i).mpr hh
    simp [hi] at this
  unfold aInsert
  rw [if_neg hi']
  split
  · rw [← hj]
    unfold aGet
    rw [if_pos hj', if_pos (by simp; omega), List.get?_eq_getElem?, List.get?_eq_getElem?,
      List.getElem?_append_left (by omega)]
  · exact hj

theorem aGet_aInsert_new {α : Type} (l : List α) (i : Int) (v w : α)
    (hi : aGet l i = none) (h : aGet (aInsert l i v) i = some w) : w = v := by
  have hi' : ¬ (0 ≤ i ∧ i < l.length) := by
    intro hh
    have := (aGet_isSome l i).mpr hh
    simp [hi] at this
  unfold aInsert at h
  rw [if_neg hi'] at h
  split at h
  · rename_i e
    unfold aGet at h
    split at h
    · rw [List.get?_eq_getElem?, List.getElem?_append_right (by omega)] at h
      have : i.toNat - l.length = 0 := by omega
      simp [this] at h
      exact h.symm
    · cases h
  · rw [hi] at h; cases h

theorem Node.child_link_keep (y : Node) (c c' : CursorElement) (ch : Node)
    (hc : y.child c = none) (h : y.child c' = some ch) :
    ((y.link c.Type (newNode c.Get)).1).child c' = some ch := by
  cases c with
  | MapKey k =>
    simp only [CursorElement.Type, CursorElement.Get, Node.link, newNode, Node.key]
    cases c' with
    | MapKey k' =>
      simp only [Node.child, Node.hmap_setHmap] at hc h ⊢
      have hne : k' ≠ k := by
        intro e; subst e; rw [hc] at h; cases h
      rw [hGet_hPut_ne _ _ _ _ hne]
      exact h
    | ListKey i => simpa [Node.child] using h
  | ListKey i =>
    simp only [CursorElement.Type, CursorElement.Get, Node.link, newNode, Node.key]
    cases c' with
    | MapKey k' => simpa [Node.child] using h
    | ListKey j =>
      simp only [Node.child, Node.list_setList] at hc h ⊢
      exact aGet_aInsert_keep _ _ _ _ _ hc h

theorem Node.child_link_new (y : Node) (c : CursorElement) (ch : Node)
    (hc : y.child c = none)
    (h : ((y.link c.Type (newNode c.Get)).1).child c = some ch) : ch = newNode c.Get := by
  cases c with
  | MapKey k =>
    simp only [CursorElement.Type, CursorElement.Get, Node.link, newNode, Node.key, Node.child,
      Node.hmap_setHmap, hGet_hPut_same, Option.some.injEq] at h
    simp only [CursorElement.Get, newNode]
    exact h.symm
  | ListKey i =>
    simp only [CursorElement.Type, CursorElement.Get, Node.link, newNode, Node.key, Node.child,
      Node.list_setList] at h hc
    exact aGet_aInsert_new _ _ _ _ hc h

/-! ## The bookkeeping of `traverse` -/

theorem push_ne_of_prefix (p q : Ref) (c : CursorElement)
    (h : p.root ≠ q.root ∨ p.path <+: q.path) : p ≠ q.push c := by
  intro e
  subst e
  rcases h with h | h
  · exact h rfl
  · have := h.length_le
    simp [Ref.push] at this

theorem traverseStep_tracks (h₀ : Node) (s : Trav) (c : CursorElement) (hv : s.valid)
    (ht : s.tracks h₀) : (traverseStep s c).tracks h₀ := by
  obtain ⟨v1, v2, v3⟩ := hv
  obtain ⟨t1, t2, t3, t4, ⟨r₀, t5, t5'⟩, t6, t7, t8⟩ := ht
  obtain ⟨y, hy⟩ := Option.isSome_iff_exists.mp v1
  have hnew : s.nPtr.push c ∉ s.travNodes := fun hm =>
    push_ne_of_prefix _ _ c (v3 _ hm) rfl
  have hnewc : s.nPtr.push c ∉ s.createdNodes := fun hm => hnew (t3 _ hm)
  have hpne : s.nPtr.push c ≠ { root := 0, path := [] } := by
    intro e
    have := congrArg Ref.path e
    simp [Ref.push] at this
  have hpush : deref s.heap (s.nPtr.push c) = y.child c := by
    rw [deref_push, hy]; rfl
  unfold traverseStep
  cases he : deref s.heap (s.nPtr.push c) with
  | some ch =>
    simp only []
    have hA : s.createdNodes = [] ∧ s.heap = [h₀] ∧ s.nPtr.root = 0 := by
      rcases t8 with h | ⟨k, hk⟩
      · exact h
      · rw [hy] at hk
        rw [hpush, Option.some.inj hk] at he
        cases c <;> simp [Node.child, newNode, Node.hmap, Node.list, hGet, aGet] at he
    refine ⟨?_, t2, ?_, ?_, ⟨r₀, t5, t5'⟩, ?_, t7, Or.inl ⟨hA.1, hA.2.1, hA.2.2⟩⟩
    · exact List.nodup_append.mpr ⟨t1, List.nodup_singleton _, by
        intro a ha hb
        rw [List.mem_singleton] at hb
        subst hb
        exact hnew ha⟩
    · intro p hp
      exact List.mem_append_left _ (t3 p hp)
    · intro p hp
      rcases List.mem_append.mp hp with hp | hp
      · exact t4 p hp
      · rw [List.mem_singleton.mp hp]; exact hpne
    · intro p hp hpc
      rcases List.mem_append.mp hp with hp | hp
      · exact t6 p hp hpc
      · rw [List.mem_singleton.mp hp]
        refine ⟨hA.2.2, ch, ch, ?_, he, rfl⟩
        have := he
        rw [hA.2.1] at this
        unfold deref at this
        have hr : (s.nPtr.push c).root = 0 := hA.2.2
        rw [hr] at this
        simpa using this
  | none =>
    simp only []
    have hyc : y.child c = none := by rw [← hpush]; exact he
    have hfr : ∀ y', deref s.heap s.nPtr = some y' → ∀ c' ch', y'.child c' = some ch' →
        ((y'.link c.Type (newNode c.Get)).1).child c' = some ch' := by
      intro y' hy' c' ch' hch
      rw [hy] at hy'
      rw [← Option.some.inj hy'] at hch ⊢
      exact Node.child_link_keep y c c' ch' hyc hch
    have hkeep : ∀ (p : Ref) (x : Node), deref s.heap p = some x →
        ∃ x', deref (modify s.heap s.nPtr
          (fun cur => (cur.link c.Type (newNode c.Get)).1)) p = some x' ∧ x'.deps = x.deps :=
      fun p x hx => deref_modify_deps _ p _ _ x hx hfr (fun y' => Node.deps_link y' _ _)
    have hnd : (s.travNodes ++ [s.nPtr.push c]).Nodup :=
      List.nodup_append.mpr ⟨t1, List.nodup_singleton _, by
        intro a ha hb
        rw [List.mem_singleton] at hb
        subst hb
        exact hnew ha⟩
    have hndc : (s.createdNodes ++ [s.nPtr.push c]).Nodup :=
      List.nodup_append.mpr ⟨t2, List.nodup_singleton _, by
        intro a ha hb
        rw [List.mem_singleton] at hb
        subst hb
        exact hnewc ha⟩
    cases he' : deref (modify s.heap s.nPtr
        (fun cur => (cur.link c.Type (newNode c.Get)).1)) (s.nPtr.push c) with
    | some ch =>
      simp only []
      have hch : ch = newNode c.Get := by
        rw [deref_push, deref_modify_same _ _ _ y hy] at he'
        exact Node.child_link_new y c ch hyc he'
      obtain ⟨r₁, hr₁, hr₁'⟩ := hkeep _ r₀ t5
      refine ⟨hnd, hndc, ?_, ?_, ⟨r₁, hr₁, by rw [hr₁', t5']⟩, ?_, ?_,
        Or.inr ⟨c.Get, by rw [he', hch]⟩⟩
      · intro p hp
        rcases List.mem_append.mp hp with hp | hp
        · exact List.mem_append_left _ (t3 p hp)
        · exact List.mem_append_right _ hp
      · intro p hp
        rcases List.mem_append.mp hp with hp | hp
        · exact t4 p hp
        · rw [List.mem_singleton.mp hp]; exact hpne
      · intro p hp hpc
        rcases List.mem_append.mp hp with hp | hp
        · obtain ⟨a, x₀, x, b1, b2, b3⟩ := t6 p hp (fun hm => hpc (List.mem_append_left _ hm))
          obtain ⟨x', hx', hx''⟩ := hkeep p x b2
          exact ⟨a, x₀, x', b1, hx', by rw [hx'', b3]⟩
        · exact absurd (List.mem_append_right _ hp) hpc
      · intro p hp
        rcases List.mem_append.mp hp with hp | hp
        · obtain ⟨x, b1, b2⟩ := t7 p hp
          obtain ⟨x', hx', hx''⟩ := hkeep p x b1
          exact ⟨x', hx', by rw [hx'', b2]⟩
        · rw [List.mem_singleton.mp hp]
          exact ⟨ch, he', by rw [hch]; rfl⟩
    | none =>
      simp only []
      have hlen : (modify s.heap s.nPtr
          (fun cur => (cur.link c.Type (newNode c.Get)).1)).length = s.heap.length :=
        modify_length _ _ _
      have hfresh : ∀ p, (deref s.heap p).isSome →
          p ≠ { root := (modify s.heap s.nPtr
            (fun cur => (cur.link c.Type (newNode c.Get)).1)).length, path := [] } := by
        intro p hp e
        have := deref_lt _ _ hp
        rw [e, hlen] at this
        exact Nat.lt_irrefl _ this
      have hkeep' : ∀ (p : Ref) (x : Node), deref s.heap p = some x →
          ∃ x', deref (modify s.heap s.nPtr
            (fun cur => (cur.link c.Type (newNode c.Get)).1) ++ [newNode c.Get]) p = some x' ∧
            x'.deps = x.deps := by
        intro p x hx
        obtain ⟨x', hx', hx''⟩ := hkeep p x hx
        exact ⟨x', by rw [deref_append _ _ _ (by simp [hx'])]; exact hx', hx''⟩
      have hnewt : ∀ p ∈ s.travNodes, p ≠ { root := (modify s.heap s.nPtr
            (fun cur => (cur.link c.Type (newNode c.Get)).1)).length, path := [] } :=
        fun p hp => hfresh p (v2 p hp)
      obtain ⟨r₁, hr₁, hr₁'⟩ := hkeep' _ r₀ t5
      refine ⟨?_, ?_, ?_, ?_, ⟨r₁, hr₁, by rw [hr₁', t5']⟩, ?_, ?_,
        Or.inr ⟨c.Get, deref_append_new _ _⟩⟩
      · exact List.nodup_append.mpr ⟨t1, List.nodup_singleton _, by
          intro a ha hb
          rw [List.mem_singleton] at hb
          subst hb
          exact hnewt _ ha rfl⟩
      · exact List.nodup_append.mpr ⟨t2, List.nodup_singleton _, by
          intro a ha hb
          rw [List.mem_singleton] at hb
          subst hb
          exact hnewt _ (t3 _ ha) rfl⟩
      · intro p hp
        rcases List.mem_append.mp hp with hp | hp
        · exact List.mem_append_left _ (t3 p hp)
        · exact List.mem_append_right _ hp
      · intro p hp
        rcases List.mem_append.mp hp with hp | hp
        · exact t4 p hp
        · rw [List.mem_singleton.mp hp]
          exact (hfresh _ (by simp [t5])).symm
      · intro p hp hpc
        rcases List.mem_append.mp hp with hp | hp
        · obtain ⟨a, x₀, x, b1, b2, b3⟩ := t6 p hp (fun hm => hpc (List.mem_append_left _ hm))
          obtain ⟨x', hx', hx''⟩ := hkeep' p x b2
          exact ⟨a, x₀, x', b1, hx', by rw [hx'', b3]⟩
        · exact absurd (List.mem_append_right _ hp) hpc
      · intro p hp
        rcases List.mem_append.mp hp with hp | hp
        · obtain ⟨x, b1, b2⟩ := t7 p hp
          obtain ⟨x', hx', hx''⟩ := hkeep' p x b1
          exact ⟨x', hx', by rw [hx'', b2]⟩
        · rw [List.mem_singleton.mp hp]
          exact ⟨newNode c.Get, deref_append_new _ _, rfl⟩

theorem traverseFrom_tracks (h₀ : Node) (path : List CursorElement) :
    ∀ s : Trav, s.valid → s.tracks h₀ → (traverseFrom s path).tracks h₀ := by
  induction path with
  | nil => intro s _ h; exact h
  | cons c cs ih =>
    intro s hv h
    exact ih _ (traverseStep_valid s c hv) (traverseStep_tracks h₀ s c hv h)

theorem traverse_tracks (d : Doc) (cursor : Cursor) : (traverse d cursor).tracks d.Head := by
  apply traverseFrom_tracks
  · refine ⟨by simp [deref, Node.resolve], ?_, ?_⟩ <;> intro p hp <;> cases hp
  · refine ⟨List.nodup_nil, List.nodup_nil, ?_, ?_, ⟨d.Head, by simp [deref, Node.resolve], rfl⟩,
      ?_, ?_, Or.inl ⟨rfl, rfl, rfl⟩⟩ <;> intro p hp <;> cases hp

/-! ## The deps after `ApplyOperation` -/

theorem applyOperationHeap_deps (d : Doc) (o : Operation) (p : Ref) (x : Node)
    (hx : deref (traverse d o.Cursor).heap p = some x)
    (hp : p.root ≠ (traverse d o.Cursor).nPtr.root ∨
      p.path <+: (traverse d o.Cursor).nPtr.path) :
    ∃ n, deref (applyOperationHeap d o).heap p = some n ∧
      n.deps = x.deps ++ List.replicate
        ((traverse d o.Cursor).travNodes.count p + (traverse d o.Cursor).createdNodes.count p)
        o.ID := by
  obtain ⟨x', h1, h2⟩ := addDependencies_exact _ o.ID p x hx
  simp only [applyOperationHeap]
  by_cases hroot : p.root = (traverse d o.Cursor).nPtr.root
  · rcases hp with h | ⟨r, hr⟩
    · exact absurd hroot h
    · rw [deref_modify_pfx _ p _ _ x' hroot r hr.symm h1]
      exact ⟨_, rfl, by rw [Node.deps_update _ (fun y => Node.deps_Mutate y o), h2]⟩
  · rw [deref_modify_other _ p _ _ hroot]
    exact ⟨x', h1, h2⟩

/-- C20: for every document and every operation (an Insert on which `ApplyOperation`
succeeds included), after `ApplyOperation`: every traversed node that the traversal did not
create is a node the document had at that path, and its deps are the deps it had followed
by the ID once; every node the traversal created is also listed as traversed, and its deps
are the ID twice; the deps of the root are as before; and for the empty cursor nothing is
traversed and the dependency loop leaves the tree as it is. In `docABC` with the cursor
`["a", "z"]`, `"a"` existed and gets the ID once, `"z"` is created and gets it twice. -/
theorem deps_multiplicity (d : Doc) (o : Operation) :
    (∀ p ∈ (traverse d o.Cursor).travNodes, p ∉ (traverse d o.Cursor).createdNodes →
      p.root = 0 ∧ ∃ x₀ n, d.Head.resolve p.path = some x₀ ∧
        (ApplyOperation d o).1.Head.resolve p.path = some n ∧ n.deps = x₀.deps ++ [o.ID]) ∧
    (∀ p ∈ (traverse d o.Cursor).createdNodes, p ∈ (traverse d o.Cursor).travNodes ∧
      ∃ n, deref (applyOperationHeap d o).heap p = some n ∧ n.deps = [o.ID, o.ID] ∧
        (p.root = 0 → (ApplyOperation d o).1.Head.resolve p.path = some n)) ∧
    (ApplyOperation d o).1.Head.deps = d.Head.deps ∧
    (o.Cursor.Path = [] → (traverse d o.Cursor).travNodes = [] ∧
      addDependencies (traverse d o.Cursor) o.ID = [d.Head]) ∧
    ((ApplyOperation docABC insAZd).1.Head.resolve [.MapKey "a"]).map Node.deps
      = some ["E"] ∧
    ((ApplyOperation docABC insAZd).1.Head.resolve [.MapKey "a", .MapKey "z"]).map Node.deps
      = some ["E", "E"] := by
  obtain ⟨_, v2, v3⟩ := traverse_valid d o.Cursor
  obtain ⟨t1, t2, t3, t4, ⟨r₀, t5, t5'⟩, t6, t7, _⟩ := traverse_tracks d o.Cursor
  refine ⟨?_, ?_, ?_, ?_, by decide, by decide⟩
  · intro p hp hpc
    obtain ⟨hroot, x₀, x, b1, b2, b3⟩ := t6 p hp hpc
    obtain ⟨n, hn, hd⟩ := applyOperationHeap_deps d o p x b2 (v3 p hp)
    refine ⟨hroot, x₀, n, b1, ?_, ?_⟩
    · rw [ApplyOperation_head]
      exact deref_head _ p n _ hn hroot
    · rw [hd, b3, List.count_eq_one_of_mem t1 hp, List.count_eq_zero_of_not_mem hpc]
      rfl
  · intro p hp
    have hpt := t3 p hp
    obtain ⟨x, b1, b2⟩ := t7 p hp
    obtain ⟨n, hn, hd⟩ := applyOperationHeap_deps d o p x b1 (v3 p hpt)
    refine ⟨hpt, n, hn, ?_, fun hroot => ?_⟩
    · rw [hd, b2, List.count_eq_one_of_mem t1 hpt, List.count_eq_one_of_mem t2 hp]
      rfl
    · rw [ApplyOperation_head]
      exact deref_head _ p n _ hn hroot
  · obtain ⟨n, hn, hd⟩ := applyOperationHeap_deps d o { root := 0, path := [] } r₀ t5
      (Or.inr (List.nil_prefix))
    have h1 := deref_head _ _ n d.Head hn rfl
    rw [← ApplyOperation_head] at h1
    simp only [Node.resolve, Option.some.injEq] at h1
    rw [h1, hd, t5', List.count_eq_zero_of_not_mem (fun hm => t4 _ hm rfl),
      List.count_eq_zero_of_not_mem (fun hm => t4 _ (t3 _ hm) rfl)]
    simp
  · intro hpath
    simp [traverse, traverseFrom, addDependencies, hpath]

/-! ## A failed mutation -/

/-- C12: when `ApplyOperation` returns an error, `OperationsId` and `OperationsBuffer` are
as before, and every node the traversal created is still in the store, under the tree if
the traversal attached it (`badInsA`: the node `"a"` stays under the root). A node created
for a list index other than the length of the list was never attached: `badInsL` on a fresh
document fails, its created node is a root of its own, and the document has no node under
the cursor `[1]`. -/
theorem failed_apply_keeps_created :
    (∀ (d : Doc) (o : Operation), (ApplyOperation d o).2 ≠ none →
      (ApplyOperation d o).1.OperationsId = d.OperationsId ∧
      (ApplyOperation d o).1.OperationsBuffer = d.OperationsBuffer ∧
      ∀ p ∈ (traverse d o.Cursor).createdNodes,
        (deref (applyOperationHeap d o).heap p).isSome ∧
        (p.root = 0 → ((ApplyOperation d o).1.Head.resolve p.path).isSome)) ∧
    ((ApplyOperation (Init "r") badInsA).2 = some "Key type is not valid" ∧
      (ApplyOperation (Init "r") badInsA).1.OperationsId = [] ∧
      (traverse (Init "r") badInsA.Cursor).createdNodes
        = [{ root := 0, path := [.MapKey "a"] }] ∧
      ((ApplyOperation (Init "r") badInsA).1.Head.resolve [.MapKey "a"]).isSome = true) ∧
    ((ApplyOperation (Init "r") badInsL).2 = some "Key type is not valid" ∧
      (ApplyOperation (Init "r") badInsL).1.OperationsId = [] ∧
      (traverse (Init "r") badInsL.Cursor).createdNodes = [{ root := 1, path := [] }] ∧
      (ApplyOperation (Init "r") badInsL).1.Head = (Init "r").Head ∧
      (ApplyOperation (Init "r") badInsL).1.Head.resolve [.ListKey 1] = none) := by
  refine ⟨?_, by decide, by decide⟩
  intro d o herr
  refine ⟨?_, ApplyOperation_buffer d o, ?_⟩
  · rw [ApplyOperation_ids, if_neg herr]
  · intro p hp
    obtain ⟨_, _, v3⟩ := traverse_valid d o.Cursor
    obtain ⟨_, _, t3, _, _, _, t7, _⟩ := traverse_tracks d o.Cursor
    obtain ⟨x, b1, _⟩ := t7 p hp
    obtain ⟨n, hn, _⟩ := applyOperationHeap_deps d o p x b1 (v3 p (t3 p hp))
    refine ⟨by simp [hn], fun hroot => ?_⟩
    rw [ApplyOperation_head, deref_head _ p n _ hn hroot]
    rfl

theorem failed_apply_keeps_created_witness :
    (ApplyOperation (Init "r") badInsA).1.OperationsId = (Init "r").OperationsId ∧
    (ApplyOperation (Init "r") badInsA).1.OperationsBuffer = (Init "r").OperationsBuffer ∧
    ∀ p ∈ (traverse (Init "r") badInsA.Cursor).createdNodes,
      (deref (applyOperationHeap (Init "r") badInsA).heap p).isSome ∧
      (p.root = 0 → ((ApplyOperation (Init "r") badInsA).1.Head.resolve p.path).isSome) :=
  failed_apply_keeps_created.1 (Init "r") badInsA (by decide)

/-! ## The cleared children are the direct children -/

theorem setValues_map (f : Node → Node) (h : List (String × Node)) (rest : List Node) :
    setValues h ((hValues h ++ rest).map f) = h.map (fun kv => (kv.1, f kv.2)) := by
  induction h with
  | nil => rfl
  | cons kv t ih =>
    obtain ⟨k, v⟩ := kv
    simp only [hValues, List.map_cons, List.cons_append, setValues] at ih ⊢
    exact congrArg _ ih

theorem setElems_map (f : Node → Node) (l : List Node) (rest : List Node) :
    setElems l ((l ++ rest).map f) = l.map f := by
  induction l with
  | nil => rfl
  | cons c t ih =>
    simp only [List.cons_append, List.map_cons, setElems]
    exact congrArg _ ih

theorem allChildren_eq_direct_append (n : Node) :
    ∃ rest, n.allChildren = directChildren n ++ rest := by
  have hs := sizeList_directChildren n
  have h := allChildrenLoop_eq_bfsLevels n.size (directChildren n) [] n.size (by omega)
    (by omega)
  obtain ⟨k, hk⟩ : ∃ k, n.size = k + 1 := ⟨sizeList (directChildren n), hs.symm⟩
  refine ⟨bfsLevels k ((directChildren n).flatMap directChildren), ?_⟩
  unfold Node.allChildren
  rw [h, hk]
  rfl

theorem setChildren_clearNodes_allChildren (n : Node) (deps : List String) :
    (n.setChildren (clearNodes n.allChildren deps)).hmap
      = n.hmap.map (fun kv => (kv.1, (kv.2.setHmap []).setList [])) ∧
    (n.setChildren (clearNodes n.allChildren deps)).list
      = n.list.map (fun c => (c.setHmap []).setList []) := by
  obtain ⟨rest, hr⟩ := allChildren_eq_direct_append n
  rw [hr]
  unfold directChildren clearNodes Node.setChildren
  constructor
  · simp only [Node.hmap_setList, Node.hmap_setHmap, List.append_assoc]
    exact setValues_map _ _ _
  · simp only [Node.list_setList]
    have hd : (List.map (fun c => (c.setHmap []).setList []) (hValues n.hmap ++ n.list ++ rest)).drop
        n.hmap.length = List.map (fun c => (c.setHmap []).setList []) (n.list ++ rest) := by
      rw [← List.map_drop, List.append_assoc, List.drop_left' (by simp [hValues])]
    rw [hd]
    exact setElems_map _ _ _

end Rdoc
